import Mathlib

set_option maxRecDepth 16000

/-!
Shallow embedding of `src/immu/vektor.hpp`: a persistent immutable vector
with a 32-ary tree of nodes, a tail buffer, and a leaf-caching iterator.
Machine integers (`std::size_t`) are modelled as `Nat`; the subtractions
and additions where wrap-around can actually occur are modelled explicitly
modulo `2 ^ 64`.
-/

namespace immu

abbrev branching_log : Nat := 5
abbrev branching : Nat := 32
abbrev branching_mask : Nat := 31

/-- Unsigned 64-bit subtraction `a - b`, modelling `std::size_t` wrap-around
for operands below `2 ^ 64`. -/
def sub64 (a b : Nat) : Nat := (a + (2 ^ 64 - b)) % 2 ^ 64

/-- Unsigned 64-bit addition of a signed offset, modelling `size_t + ptrdiff_t`. -/
def addI64 (a : Nat) (n : Int) : Nat := (((a : Int) + n) % (2 ^ 64 : Int)).toNat

/-- A tree node (`detail::vektor_node`): either a leaf block of `branching`
element slots or an inner block of `branching` optional child handles. -/
inductive Node (α : Type) where
  | leaf : List α → Node α
  | inner : List (Option (Node α)) → Node α

variable {α : Type} [Inhabited α]

/-- Value-initialised leaf block (`vektor_leaf<T>{}`). -/
def defaultLeaf (α : Type) [Inhabited α] : List α := List.replicate branching default

/-- Read a node as a leaf (`node->leaf()`); junk value on the wrong variant,
which is undefined behaviour in the source. -/
def Node.leafD : Node α → List α
  | .leaf l => l
  | .inner _ => defaultLeaf α

/-- Read a node as an inner node (`node->inner()`); junk value on the wrong
variant, which is undefined behaviour in the source. -/
def Node.innerD : Node α → List (Option (Node α))
  | .inner l => l
  | .leaf _ => List.replicate branching none

/-- Placeholder obtained by dereferencing a null child handle (undefined
behaviour in the source). -/
def nilNode (α : Type) [Inhabited α] : Node α := .leaf (defaultLeaf α)

/-- Child access `node->inner()[k].get()` followed by dereference. -/
def Node.child (n : Node α) (k : Nat) : Node α := (n.innerD.getD k none).getD (nilNode α)

/-- The vector value `{ size_, shift_, root_, tail_ }`. -/
structure vektor (α : Type) where
  size_ : Nat
  shift_ : Nat
  root_ : Node α
  tail_ : Node α

/-- The arithmetic of `vektor::tail_offset_` as a function of the size. -/
def tailOff (size : Nat) : Nat :=
  if size < branching then 0 else ((size - 1) >>> branching_log) <<< branching_log

/-- `vektor::tail_offset_`. -/
def vektor.tail_offset_ (v : vektor α) : Nat := tailOff v.size_

/-- The descent loop of `vektor::array_for_`:
`for (auto level = shift_; level; level -= branching_log) node = node->inner()[(index >> level) & mask].get()`. -/
def descend (node : Node α) (level index : Nat) : Node α :=
  if h : level = 0 then node
  else descend (node.child ((index >>> level) &&& branching_mask)) (level - branching_log) index
termination_by level
decreasing_by
  simp only [branching_log]
  omega

/-- `vektor::array_for_` without its assertion (release semantics): the leaf
block holding `index`. -/
def vektor.array_for_ (v : vektor α) (index : Nat) : List α :=
  if index ≥ v.tail_offset_ then v.tail_.leafD
  else (descend v.root_ v.shift_ index).leafD

/-- `vektor::array_for_` with its `assert(index < size_)` modelled: `none`
when the assertion fails. -/
def vektor.array_forChk (v : vektor α) (index : Nat) : Option (List α) :=
  if index < v.size_ then some (v.array_for_ index) else none

/-- `vektor::operator[]`. -/
def vektor.at_ (v : vektor α) (index : Nat) : α :=
  (v.array_for_ index).getD (index &&& branching_mask) default

/-- `vektor::make_path_`: a fresh spine of single-child inner nodes of
depth `level / branching_log` ending at `node`. -/
def make_path_ (level : Nat) (node : Node α) : Node α :=
  if h : level = 0 then node
  else .inner ([some (make_path_ (level - branching_log) node)] ++
               List.replicate (branching - 1) none)
termination_by level
decreasing_by
  simp only [branching_log]
  omega

/-- `vektor::push_tail_`: clone the spine to the insertion point, sharing all
sibling subtrees.  The locals `parent`, `new_parent`, `idx` and `next_node` of
the source are inlined.  The `level = 0` arm is unreachable for the calls the
vector makes (the source loops/underflows there, which is undefined). -/
def push_tail_ (sz : Nat) (level : Nat) (parent : Node α) (tail : Node α) : Node α :=
  .inner (parent.innerD.set (((sz - 1) >>> level) &&& branching_mask)
    (some
      (if h : level = 0 then tail
       else if level = branching_log then tail
       else
         match parent.innerD.getD (((sz - 1) >>> level) &&& branching_mask) none with
         | some child => push_tail_ sz (level - branching_log) child tail
         | none => make_path_ (level - branching_log) tail)))
termination_by level
decreasing_by
  simp only [branching_log]
  omega

/-- `vektor::push_back`. -/
def vektor.push_back (v : vektor α) (x : α) : vektor α :=
  let tail_size := v.size_ - v.tail_offset_
  if tail_size < branching then
    let new_tail := ((v.tail_.leafD.take tail_size) ++
                     List.replicate (branching - tail_size) default).set tail_size x
    ⟨v.size_ + 1, v.shift_, v.root_, .leaf new_tail⟩
  else
    let new_tail : Node α := .leaf ([x] ++ List.replicate (branching - 1) default)
    if (v.size_ >>> branching_log) > (1 <<< v.shift_) then
      ⟨v.size_ + 1, v.shift_ + branching_log,
       .inner ([some v.root_, some (make_path_ v.shift_ v.tail_)] ++
               List.replicate (branching - 2) none),
       new_tail⟩
    else
      ⟨v.size_ + 1, v.shift_, push_tail_ v.size_ v.shift_ v.root_ v.tail_, new_tail⟩

/-- The singleton `vektor::empty_` with its sentinel empty-inner root and
empty-leaf tail. -/
def vektor.empty_ (α : Type) [Inhabited α] : vektor α :=
  ⟨0, branching_log, .inner (List.replicate branching none), .leaf (defaultLeaf α)⟩

/-- `vektor::size`. -/
def vektor.size (v : vektor α) : Nat := v.size_

/-- `vektor::empty`. -/
def vektor.emptyb (v : vektor α) : Bool := v.size_ == 0

/-- The vector obtained from the empty vector by appending the elements of
`xs` in order with `push_back`. -/
def fromList (xs : List α) : vektor α := xs.foldl vektor.push_back (vektor.empty_ α)

/-! ### The cursor (`vektor::iterator`)

`curr_` is a pointer into the cached leaf block; it is modelled as the block's
contents `leaf_` plus a signed offset `off_` (pointer arithmetic on `curr_`
is offset arithmetic). -/

structure Iter (α : Type) where
  i_ : Nat
  base_ : Nat
  leaf_ : List α
  off_ : Int
deriving DecidableEq

/-- `iterator::iterator(const vektor*)`, i.e. `begin()`. -/
def beginIt (v : vektor α) : Iter α :=
  ⟨0, 0, v.array_for_ 0, 0⟩

/-- `iterator::iterator(const vektor*, end_t)`, i.e. `end()` (release
semantics; note `size_ - 1` underflows for the empty vector). -/
def endIt (v : vektor α) : Iter α :=
  ⟨v.size_, v.size_ - (v.size_ &&& branching_mask),
   v.array_for_ (sub64 v.size_ 1),
   ((v.size_ &&& branching_mask : Nat) : Int)⟩

/-- `end()` with the assertion of `array_for_` modelled. -/
def endItChk (v : vektor α) : Option (Iter α) :=
  (v.array_forChk (sub64 v.size_ 1)).map fun l =>
    ⟨v.size_, v.size_ - (v.size_ &&& branching_mask), l,
     ((v.size_ &&& branching_mask : Nat) : Int)⟩

/-- `iterator::increment` (release semantics). -/
def incIt (v : vektor α) (it : Iter α) : Iter α :=
  let i := (it.i_ + 1) % 2 ^ 64
  if sub64 i it.base_ < branching then
    { it with i_ := i, off_ := it.off_ + 1 }
  else
    ⟨i, (it.base_ + branching) % 2 ^ 64, v.array_for_ i, 0⟩

/-- `iterator::increment` with both assertions modelled. -/
def incItChk (v : vektor α) (it : Iter α) : Option (Iter α) :=
  if it.i_ < v.size_ then
    let i := (it.i_ + 1) % 2 ^ 64
    if sub64 i it.base_ < branching then
      some { it with i_ := i, off_ := it.off_ + 1 }
    else
      (v.array_forChk i).map fun l => ⟨i, (it.base_ + branching) % 2 ^ 64, l, 0⟩
  else none

/-- `iterator::decrement` (release semantics). -/
def decIt (v : vektor α) (it : Iter α) : Iter α :=
  let i := sub64 it.i_ 1
  if i ≥ it.base_ then
    { it with i_ := i, off_ := it.off_ - 1 }
  else
    ⟨i, sub64 it.base_ branching, v.array_for_ i, ((v.array_for_ i).length : Int) - 1⟩

/-- `iterator::advance` (release semantics).  Note the source condition is
`i_ <= base_ && i_ - base_ < branching` with unsigned subtraction. -/
def advIt (v : vektor α) (it : Iter α) (n : Int) : Iter α :=
  let i := addI64 it.i_ n
  if i ≤ it.base_ ∧ sub64 i it.base_ < branching then
    { it with i_ := i, off_ := it.off_ + n }
  else
    ⟨i, i - (i &&& branching_mask), v.array_for_ i, ((i &&& branching_mask : Nat) : Int)⟩

/-- `iterator::advance` with its assertions and the assertion of `array_for_`
modelled. -/
def advItChk (v : vektor α) (it : Iter α) (n : Int) : Option (Iter α) :=
  if (n ≤ 0 ∨ it.i_ + n.toNat ≤ v.size_) ∧ (0 ≤ n ∨ (-n).toNat ≤ it.i_) then
    let i := addI64 it.i_ n
    if i ≤ it.base_ ∧ sub64 i it.base_ < branching then
      some { it with i_ := i, off_ := it.off_ + n }
    else
      (v.array_forChk i).map fun l =>
        ⟨i, i - (i &&& branching_mask), l, ((i &&& branching_mask : Nat) : Int)⟩
  else none

/-- `iterator::equal`. -/
def eqIt (a b : Iter α) : Bool := a.i_ == b.i_

/-- `iterator::dereference`: read the slot `curr_` points at. -/
def derefIt (it : Iter α) : α := it.leaf_.getD it.off_.toNat default

/-- The canonical cursor of vector `v` at logical index `k`; `begin`, `end`
and every cursor reachable from them by the cursor operations has this shape. -/
def cursorAt (v : vektor α) (k : Nat) : Iter α :=
  ⟨k, k - (k &&& branching_mask), v.array_for_ k, ((k &&& branching_mask : Nat) : Int)⟩

/-- Forward iteration: dereference, then increment, `n` times. -/
def collectFwd (v : vektor α) : Nat → Iter α → List α
  | 0, _ => []
  | n + 1, it => derefIt it :: collectFwd v n (incIt v it)

/-- Reverse iteration (`rbegin`/`rend`): decrement, then dereference, `n`
times; this is how `std::reverse_iterator` walks from `end()`. -/
def collectRev (v : vektor α) : Nat → Iter α → List α
  | 0, _ => []
  | n + 1, it => derefIt (decIt v it) :: collectRev v n (decIt v it)

/-- Iterate `incIt` `n` times. -/
def stepN (v : vektor α) : Nat → Iter α → Iter α
  | 0, it => it
  | n + 1, it => stepN v n (incIt v it)

/-! ### Arithmetic facts -/

theorem and31 (x : Nat) : x &&& branching_mask = x % 32 := by
  have h := Nat.and_pow_two_sub_one_eq_mod x 5
  norm_num at h
  simpa [branching_mask] using h

theorem shr5 (x : Nat) : x >>> branching_log = x / 32 := by
  have h := Nat.shiftRight_eq_div_pow x 5
  norm_num at h
  simpa [branching_log] using h

theorem shl5 (x : Nat) : x <<< branching_log = x * 32 := by
  have h := Nat.shiftLeft_eq x 5
  norm_num at h
  simpa [branching_log] using h

theorem one_shl (s : Nat) : 1 <<< s = 2 ^ s := by
  simpa using Nat.shiftLeft_eq 1 s

theorem shr_mul (x a b : Nat) : x >>> (a * b) = x / 32 ^ b → True := fun _ => trivial

theorem two_pow_five_mul (d : Nat) : 2 ^ (5 * d) = 32 ^ d := by
  rw [Nat.pow_mul]

theorem sub64_of_le {a b : Nat} (hb : b ≤ a) (ha : a < 2 ^ 64) : sub64 a b = a - b := by
  unfold sub64
  have hb' : b < 2 ^ 64 := lt_of_le_of_lt hb ha
  have : a + (2 ^ 64 - b) = (a - b) + 2 ^ 64 := by omega
  rw [this, Nat.add_mod_right, Nat.mod_eq_of_lt (by omega)]

theorem sub64_of_lt {a b : Nat} (hab : a < b) (hb : b < 2 ^ 64) : sub64 a b = 2 ^ 64 - (b - a) := by
  unfold sub64
  have : a + (2 ^ 64 - b) = 2 ^ 64 - (b - a) := by omega
  rw [this, Nat.mod_eq_of_lt (by omega)]

theorem addI64_eq {a : Nat} {n : Int} (h0 : 0 ≤ (a : Int) + n) (h1 : (a : Int) + n < 2 ^ 64) :
    addI64 a n = ((a : Int) + n).toNat := by
  unfold addI64
  rw [Int.emod_eq_of_lt h0 (by exact_mod_cast h1)]

theorem tailOff_eq (n : Nat) : tailOff n = if n < 32 then 0 else ((n - 1) / 32) * 32 := by
  unfold tailOff
  rw [shr5, shl5]

theorem tailOff_mod (n : Nat) : tailOff n % 32 = 0 := by
  rw [tailOff_eq]
  split <;> omega

theorem tailOff_le (n : Nat) : tailOff n ≤ n := by
  rw [tailOff_eq]
  split
  · omega
  · have := Nat.div_mul_le_self (n - 1) 32
    omega

theorem tailOff_lt {n : Nat} (h : 1 ≤ n) : tailOff n < n := by
  rw [tailOff_eq]
  split
  · omega
  · have h2 : (n - 1) / 32 * 32 ≤ n - 1 := Nat.div_mul_le_self (n - 1) 32
    omega

theorem sub_tailOff_le (n : Nat) : n - tailOff n ≤ 32 := by
  rw [tailOff_eq]
  split
  · omega
  · have e1 : n - 1 = 32 * ((n - 1) / 32) + (n - 1) % 32 := (Nat.div_add_mod _ _).symm
    have hlt : (n - 1) % 32 < 32 := Nat.mod_lt _ (by norm_num)
    omega

theorem tailOff_succ_of_lt {n : Nat} (h : n - tailOff n < 32) : tailOff (n + 1) = tailOff n := by
  rw [tailOff_eq] at h ⊢
  rw [tailOff_eq]
  have e1 : n - 1 = 32 * ((n - 1) / 32) + (n - 1) % 32 := (Nat.div_add_mod _ _).symm
  have e2 : n = 32 * (n / 32) + n % 32 := (Nat.div_add_mod _ _).symm
  have hlt : (n - 1) % 32 < 32 := Nat.mod_lt _ (by norm_num)
  have hlt2 : n % 32 < 32 := Nat.mod_lt _ (by norm_num)
  rcases Nat.lt_or_ge (n + 1) 32 with h33 | h33
  · rw [if_pos h33, if_pos (by omega)]
  · rw [if_neg (by omega)]
    simp only [Nat.add_sub_cancel]
    rcases Nat.lt_or_ge n 32 with h32 | h32
    · rw [if_pos h32]
      have : n = 31 := by omega
      subst this
      norm_num
    · rw [if_neg (by omega)]
      rw [if_neg (by omega)] at h
      omega

theorem tailOff_succ_of_full {n : Nat} (h32 : 32 ≤ n) (h : n - tailOff n = 32) :
    tailOff (n + 1) = n ∧ n % 32 = 0 := by
  rw [tailOff_eq] at h
  rw [tailOff_eq]
  rw [if_neg (by omega)] at h
  rw [if_neg (by omega)]
  simp only [Nat.add_sub_cancel]
  have e1 : n - 1 = 32 * ((n - 1) / 32) + (n - 1) % 32 := (Nat.div_add_mod _ _).symm
  have e2 : n = 32 * (n / 32) + n % 32 := (Nat.div_add_mod _ _).symm
  have hlt : (n - 1) % 32 < 32 := Nat.mod_lt _ (by norm_num)
  have hlt2 : n % 32 < 32 := Nat.mod_lt _ (by norm_num)
  omega

/-- The tree depth `shift_ / branching_log` of the vector after `n` appends,
following the branch structure of `push_back`. -/
def dOf : Nat → Nat
  | 0 => 1
  | n + 1 =>
    if n - tailOff n < branching then dOf n
    else if (n >>> branching_log) > (1 <<< (branching_log * dOf n)) then dOf n + 1
    else dOf n

theorem dOf_pos (n : Nat) : 1 ≤ dOf n := by
  induction n with
  | zero => simp [dOf]
  | succ n ih =>
    rw [dOf]
    split
    · exact ih
    · split <;> omega

theorem pow32_pos (d : Nat) : 0 < 32 ^ d := Nat.pos_pow_of_pos d (by norm_num)

theorem dOf_bounds (n : Nat) :
    tailOff n ≤ 32 ^ (dOf n + 1) ∧ (dOf n = 1 ∨ 32 ^ dOf n < tailOff n) := by
  induction n with
  | zero => simp [dOf, tailOff_eq]
  | succ n ih =>
    rw [dOf]
    rcases Nat.lt_or_ge (n - tailOff n) 32 with hA | hB
    · rw [if_pos (by simpa [branching] using hA), tailOff_succ_of_lt hA]
      exact ih
    · have hts : n - tailOff n = 32 := le_antisymm (sub_tailOff_le n) hB
      have h32 : 32 ≤ n := by have := tailOff_le n; omega
      obtain ⟨hto, hmod⟩ := tailOff_succ_of_full h32 hts
      rw [if_neg (by simp [branching]; omega)]
      set d := dOf n with hd
      have hd1 : 1 ≤ d := dOf_pos n
      have hpow : (1 : Nat) <<< (branching_log * d) = 32 ^ d := by
        rw [one_shl]
        simpa [branching_log] using two_pow_five_mul d
      have hshr : n >>> branching_log = n / 32 := shr5 n
      have hp1 : 32 ^ (d + 1) = 32 ^ d * 32 := by ring
      have hp2 : 32 ^ (d + 2) = 32 ^ d * 32 * 32 := by ring
      have hppos := pow32_pos d
      split
      · next hcond =>
        rw [hshr, hpow] at hcond
        refine ⟨?_, Or.inr ?_⟩ <;> rw [hto]
        · have h1 : tailOff n ≤ 32 ^ (d + 1) := ih.1
          omega
        · have : n / 32 ≥ 32 ^ d + 1 := hcond
          have : 32 * (n / 32) = n := by omega
          omega
      · next hcond =>
        rw [hshr, hpow, Nat.not_lt] at hcond
        refine ⟨?_, ?_⟩ <;> rw [hto]
        · have : 32 * (n / 32) = n := by omega
          omega
        · rcases ih.2 with h1 | h1
          · exact Or.inl h1
          · right
            have := tailOff_le n
            omega

/-! ### List infrastructure -/

theorem ofFn_eq_of_getElem? {β : Type} {n : Nat} (g : Fin n → β) (l : List β)
    (hl : l.length = n) (h : ∀ j : Fin n, l[j.1]? = some (g j)) : List.ofFn g = l := by
  apply List.ext_getElem?
  intro k
  rw [List.getElem?_ofFn]
  rcases Nat.lt_or_ge k n with hk | hk
  · rw [h ⟨k, hk⟩]
    simp [List.ofFnNthVal, hk]
  · rw [List.getElem?_eq_none (by omega)]
    simp [List.ofFnNthVal, Nat.not_lt.2 hk]

theorem set_ofFn {β : Type} {n : Nat} (g : Fin n → β) (k : Nat) (v : β) (hk : k < n) :
    (List.ofFn g).set k v = List.ofFn (fun j : Fin n => if j.1 = k then v else g j) := by
  apply List.ext_getElem?
  intro m
  rw [List.getElem?_set, List.getElem?_ofFn, List.getElem?_ofFn]
  rcases Nat.lt_or_ge m n with hm | hm
  · simp only [List.ofFnNthVal, dif_pos hm]
    rcases eq_or_ne k m with rfl | hne
    · simp [List.length_ofFn, hk]
    · simp [hne, Ne.symm hne]
  · have hne : k ≠ m := by omega
    simp [List.ofFnNthVal, dif_neg (Nat.not_lt.2 hm), hne]

/-- Split a list into blocks of `branching` elements. -/
def blocks (l : List α) : List (List α) :=
  if h : l.isEmpty then [] else l.take branching :: blocks (l.drop branching)
termination_by l.length
decreasing_by
  simp only [List.length_drop, branching]
  have : l ≠ [] := by simpa [List.isEmpty_iff] using h
  have : 0 < l.length := List.length_pos.2 this
  omega

theorem blocks_nil : blocks ([] : List α) = [] := by
  unfold blocks
  simp

theorem blocks_cons {l : List α} (h : l ≠ []) :
    blocks l = l.take branching :: blocks (l.drop branching) := by
  conv_lhs => unfold blocks
  rw [dif_neg (by simpa [List.isEmpty_iff] using h)]

theorem blocks_length_aux :
    ∀ (n : Nat) (l : List α), l.length ≤ n → l.length % 32 = 0 →
      (blocks l).length = l.length / 32 := by
  intro n
  induction n with
  | zero =>
    intro l hl _
    have : l = [] := List.eq_nil_of_length_eq_zero (by omega)
    subst this
    simp [blocks_nil]
  | succ n ih =>
    intro l hl hmod
    rcases eq_or_ne l [] with rfl | hne
    · simp [blocks_nil]
    · have hpos : 0 < l.length := List.length_pos.2 hne
      have h32 : 32 ≤ l.length := by omega
      rw [blocks_cons hne]
      have hdl : (l.drop branching).length = l.length - 32 := by
        simp [branching]
      rw [List.length_cons, ih (l.drop branching) (by omega) (by omega)]
      rw [hdl]
      omega

theorem blocks_length {l : List α} (hmod : l.length % 32 = 0) :
    (blocks l).length = l.length / 32 :=
  blocks_length_aux l.length l le_rfl hmod

theorem blocks_getElem?_aux :
    ∀ (n : Nat) (l : List α) (j : Nat), l.length ≤ n → l.length % 32 = 0 →
      32 * j < l.length →
      (blocks l)[j]? = some ((l.drop (32 * j)).take 32) := by
  intro n
  induction n with
  | zero =>
    intro l j hl _ hj
    omega
  | succ n ih =>
    intro l j hl hmod hj
    have hne : l ≠ [] := by
      intro h
      subst h
      simp at hj
    have hpos : 0 < l.length := List.length_pos.2 hne
    have h32 : 32 ≤ l.length := by omega
    rw [blocks_cons hne]
    cases j with
    | zero => simp
    | succ j =>
      have hdl : (l.drop branching).length = l.length - 32 := by simp [branching]
      rw [List.getElem?_cons_succ,
          ih (l.drop branching) j (by omega) (by omega) (by omega)]
      rw [List.drop_drop]
      congr 2
      simp [branching]
      ring

theorem blocks_getElem? {l : List α} {j : Nat} (hmod : l.length % 32 = 0)
    (hj : 32 * j < l.length) :
    (blocks l)[j]? = some ((l.drop (32 * j)).take 32) :=
  blocks_getElem?_aux l.length l j le_rfl hmod hj

theorem blocks_append_aux :
    ∀ (n : Nat) (a b : List α), a.length ≤ n → a.length % 32 = 0 →
      blocks (a ++ b) = blocks a ++ blocks b := by
  intro n
  induction n with
  | zero =>
    intro a b ha _
    have : a = [] := List.eq_nil_of_length_eq_zero (by omega)
    subst this
    simp [blocks_nil]
  | succ n ih =>
    intro a b ha hmod
    rcases eq_or_ne a [] with rfl | hne
    · simp [blocks_nil]
    · have hpos : 0 < a.length := List.length_pos.2 hne
      have h32 : 32 ≤ a.length := by omega
      rcases eq_or_ne b [] with rfl | hbne
      · simp [blocks_nil]
      · have habne : a ++ b ≠ [] := by simp [hne]
        rw [blocks_cons habne, blocks_cons hne]
        rw [List.take_append_of_le_length (by simpa [branching] using h32),
            List.drop_append_of_le_length (by simpa [branching] using h32)]
        have hdl : (a.drop branching).length = a.length - 32 := by simp [branching]
        rw [ih (a.drop branching) b (by omega) (by omega)]
        simp

theorem blocks_append {a b : List α} (hmod : a.length % 32 = 0) :
    blocks (a ++ b) = blocks a ++ blocks b :=
  blocks_append_aux a.length a b le_rfl hmod

theorem blocks_single {l : List α} (hl : l.length = 32) : blocks l = [l] := by
  have hne : l ≠ [] := by
    intro h
    subst h
    simp at hl
  rw [blocks_cons hne, List.take_of_length_le (by simp only [branching]; omega)]
  have : l.drop branching = [] := List.drop_eq_nil_of_le (by simp only [branching]; omega)
  rw [this, blocks_nil]

/-! ### The canonical tree -/

/-- The canonical tree of depth `e` holding the given leaf blocks in order,
with all child slots beyond the last block empty. -/
def canon (α : Type) [Inhabited α] : Nat → List (List α) → Node α
  | 0, ls => .leaf (ls.headD (defaultLeaf α))
  | e + 1, ls =>
    .inner (List.ofFn fun j : Fin branching =>
      if ((ls.drop (j.1 * 32 ^ e)).take (32 ^ e)).isEmpty then none
      else some (canon α e ((ls.drop (j.1 * 32 ^ e)).take (32 ^ e))))

theorem canon_getD (e : Nat) (ls : List (List α)) (j : Nat) (hj : j < branching) :
    (canon α (e + 1) ls).innerD.getD j none =
      (if ((ls.drop (j * 32 ^ e)).take (32 ^ e)).isEmpty then none
       else some (canon α e ((ls.drop (j * 32 ^ e)).take (32 ^ e)))) := by
  show (List.ofFn _).getD j none = _
  rw [List.getD_eq_getElem?_getD, List.getElem?_ofFn]
  simp [List.ofFnNthVal, hj]

theorem canon_child (e : Nat) (ls : List (List α)) (j : Nat) (hj : j < branching)
    (hne : ¬ ((ls.drop (j * 32 ^ e)).take (32 ^ e)).isEmpty) :
    (canon α (e + 1) ls).child j = canon α e ((ls.drop (j * 32 ^ e)).take (32 ^ e)) := by
  unfold Node.child
  rw [canon_getD e ls j hj, if_neg hne]
  rfl

/-! ### Unfolding lemmas for the recursive operations -/

theorem descend_zero (node : Node α) (i : Nat) : descend node 0 i = node := by
  unfold descend
  simp

theorem descend_step (node : Node α) {level : Nat} (h : level ≠ 0) (i : Nat) :
    descend node level i =
      descend (node.child ((i >>> level) &&& branching_mask)) (level - branching_log) i := by
  conv_lhs => unfold descend
  rw [dif_neg h]

theorem make_path_zero (node : Node α) : make_path_ 0 node = node := by
  unfold make_path_
  simp

theorem make_path_step {level : Nat} (h : level ≠ 0) (node : Node α) :
    make_path_ level node =
      .inner ([some (make_path_ (level - branching_log) node)] ++
              List.replicate (branching - 1) none) := by
  conv_lhs => unfold make_path_
  rw [dif_neg h]

/-! ### Segment lemmas for appending one block -/

theorem seg_append_lt {β : Type} (ls : List β) (x : β) (a b : Nat) (h : a + b ≤ ls.length) :
    ((ls ++ [x]).drop a).take b = (ls.drop a).take b := by
  rw [List.drop_append_of_le_length (by omega)]
  rw [List.take_append_of_le_length (by simp; omega)]

theorem seg_append_eq {β : Type} (ls : List β) (x : β) (a b : Nat) (ha : a ≤ ls.length)
    (hb : ls.length - a < b) :
    ((ls ++ [x]).drop a).take b = ls.drop a ++ [x] := by
  rw [List.drop_append_of_le_length (by omega)]
  rw [List.take_of_length_le (by simp; omega)]

theorem seg_append_gt {β : Type} (ls : List β) (x : β) (a b : Nat) (ha : ls.length < a) :
    ((ls ++ [x]).drop a).take b = [] := by
  rw [List.drop_eq_nil_of_le (by simp; omega)]
  simp

/-! ### The canonical shape of `make_path_`, `descend` and `push_tail_` -/

theorem canon_succ (e : Nat) (ls : List (List α)) :
    canon α (e + 1) ls = .inner (List.ofFn fun j : Fin branching =>
      if ((ls.drop (j.1 * 32 ^ e)).take (32 ^ e)).isEmpty then none
      else some (canon α e ((ls.drop (j.1 * 32 ^ e)).take (32 ^ e)))) := rfl

theorem make_path_canon (e : Nat) (tl : List α) :
    make_path_ (5 * e) (Node.leaf tl) = canon α e [tl] := by
  induction e with
  | zero =>
    rw [Nat.mul_zero, make_path_zero]
    simp [canon]
  | succ e ih =>
    rw [make_path_step (by omega)]
    have h5 : 5 * (e + 1) - branching_log = 5 * e := by
      simp only [branching_log]
      omega
    rw [h5, ih, canon_succ e [tl]]
    refine congrArg Node.inner ?_
    refine (ofFn_eq_of_getElem? _ _ (by simp [branching]) ?_).symm
    intro j
    match j with
    | ⟨0, _⟩ =>
      have h1 : (([tl] : List (List α)).drop (0 * 32 ^ e)).take (32 ^ e) = [tl] := by
        rw [Nat.zero_mul, List.drop_zero]
        apply List.take_of_length_le
        simp only [List.length_singleton]
        exact pow32_pos e
      simp only [h1]
      simp
    | ⟨j + 1, hj⟩ =>
      have hpos : 1 ≤ (j + 1) * 32 ^ e := Nat.mul_pos (Nat.succ_pos j) (pow32_pos e)
      have h1 : (([tl] : List (List α)).drop ((j + 1) * 32 ^ e)).take (32 ^ e) = [] := by
        rw [List.drop_eq_nil_of_le (by simpa using hpos)]
        simp
      have hj31 : j < 31 := by
        simp only [branching] at hj
        omega
      show ([some (canon α e [tl])] ++ List.replicate (branching - 1) none)[j + 1]? =
        some (if (([tl].drop ((j + 1) * 32 ^ e)).take (32 ^ e)).isEmpty then none
              else some (canon α e (([tl].drop ((j + 1) * 32 ^ e)).take (32 ^ e))))
      rw [h1]
      rw [List.getElem?_append_right (by simp)]
      simp only [List.length_singleton, Nat.add_sub_cancel]
      rw [List.getElem?_replicate, if_pos (by simp only [branching]; omega)]
      simp

theorem descend_canon :
    ∀ (e : Nat), 1 ≤ e → ∀ (ls : List (List α)) (i : Nat),
      ls.length ≤ 32 ^ e → (i >>> 5) % 32 ^ e < ls.length →
      descend (canon α e ls) (5 * e) i = .leaf (ls.getD ((i >>> 5) % 32 ^ e) (defaultLeaf α)) := by
  intro e
  induction e with
  | zero => omega
  | succ e ih =>
    intro _ ls i hlen hi
    rcases Nat.eq_zero_or_pos e with rfl | he
    · -- depth one: the root child at the masked index is the leaf itself
      have h5 : 5 * (0 + 1) = 5 := by norm_num
      rw [h5, descend_step _ (by norm_num) i]
      have h0 : (5 : Nat) - branching_log = 0 := rfl
      rw [h0, descend_zero]
      have hpow1 : (32 : Nat) ^ (0 + 1) = 32 := by norm_num
      set r := (i >>> 5) % 32 ^ (0 + 1) with hr
      have hr32 : r < 32 := by
        rw [hr, hpow1]
        exact Nat.mod_lt _ (by norm_num)
      have hand : (i >>> 5) &&& branching_mask = r := by
        rw [and31, hr, hpow1]
      rw [hand]
      have hcons : ls.drop r = ls.getD r (defaultLeaf α) :: ls.drop (r + 1) := by
        have h1 : ls.getD r (defaultLeaf α) = ls.get ⟨r, hi⟩ := by
          rw [List.getD_eq_getElem?_getD, List.getElem?_eq_getElem hi]
          rfl
        rw [h1]
        exact List.drop_eq_getElem_cons hi
      have hne : ¬ ((ls.drop (r * 32 ^ 0)).take (32 ^ 0)).isEmpty := by
        simp only [pow_zero, Nat.mul_one]
        rw [hcons]
        simp
      rw [canon_child 0 ls r (by simpa [branching] using hr32) hne]
      simp only [pow_zero, Nat.mul_one]
      rw [hcons]
      simp [canon]
      rfl
    · -- inductive step: peel one inner level off the canonical tree
      rw [descend_step _ (by omega : 5 * (e + 1) ≠ 0) i]
      have hsub : 5 * (e + 1) - branching_log = 5 * e := by
        simp only [branching_log]
        omega
      rw [hsub]
      set L := (i >>> 5) % 32 ^ (e + 1) with hL
      have hppos := pow32_pos e
      have hpsucc : 32 ^ (e + 1) = 32 ^ e * 32 := pow_succ 32 e
      have hq : (i >>> (5 * (e + 1))) &&& branching_mask = L / 32 ^ e := by
        rw [and31]
        have h1 : i >>> (5 * (e + 1)) = (i >>> 5) >>> (5 * e) := by
          rw [← Nat.shiftRight_add]
          congr 1
          omega
        rw [h1, Nat.shiftRight_eq_div_pow, two_pow_five_mul, hL, hpsucc]
        exact (Nat.mod_mul_right_div_self _ _ _).symm
      rw [hq]
      set q := L / 32 ^ e with hqdef
      set r := L % 32 ^ e with hrdef
      have hLqr : 32 ^ e * q + r = L := Nat.div_add_mod L (32 ^ e)
      have hLlt : L < 32 ^ (e + 1) := Nat.mod_lt _ (pow32_pos (e + 1))
      have hq32 : q < 32 := by
        rw [hqdef]
        apply Nat.div_lt_of_lt_mul
        omega
      have hrlt : r < 32 ^ e := Nat.mod_lt _ hppos
      have hseglen : r < ((ls.drop (q * 32 ^ e)).take (32 ^ e)).length := by
        simp only [List.length_take, List.length_drop]
        have hmc : q * 32 ^ e = 32 ^ e * q := Nat.mul_comm _ _
        omega
      have hseg_ne : ¬ ((ls.drop (q * 32 ^ e)).take (32 ^ e)).isEmpty := by
        intro hE
        rw [List.isEmpty_iff] at hE
        rw [hE] at hseglen
        simp at hseglen
      rw [canon_child e ls q (by simpa [branching] using hq32) hseg_ne]
      have hmodr : (i >>> 5) % 32 ^ e = r := by
        rw [hrdef, hL]
        exact (Nat.mod_mod_of_dvd _ (pow_dvd_pow 32 (by omega))).symm
      rw [ih he ((ls.drop (q * 32 ^ e)).take (32 ^ e)) i (List.length_take_le _ _)
            (by rw [hmodr]; exact hseglen)]
      congr 1
      rw [hmodr]
      rw [List.getD_eq_getElem?_getD, List.getD_eq_getElem?_getD,
          List.getElem?_take_of_lt hrlt, List.getElem?_drop]
      congr 2
      have hmc : q * 32 ^ e = 32 ^ e * q := Nat.mul_comm _ _
      omega

/-- Setting slot `q` of the canonical tree of `ls` to the canonical subtree of
the appended spine is the canonical tree of `ls ++ [tl]`. -/
theorem canon_append_slots (e : Nat) (ls : List (List α)) (tl : List α) (q r : Nat)
    (hq32 : q < 32) (hQR : 32 ^ e * q + r = ls.length) (hrlt : r < 32 ^ e)
    (N : Node α) (hN : N = canon α e (ls.drop (q * 32 ^ e) ++ [tl])) :
    Node.inner ((canon α (e + 1) ls).innerD.set q (some N)) = canon α (e + 1) (ls ++ [tl]) := by
  subst hN
  rw [canon_succ e ls, canon_succ e (ls ++ [tl])]
  simp only [Node.innerD]
  refine congrArg Node.inner ?_
  apply List.ext_getElem?
  intro k
  have hmulcomm : q * 32 ^ e = 32 ^ e * q := Nat.mul_comm _ _
  rcases Nat.lt_or_ge k 32 with hk | hk
  · have hkb : k < branching := by simpa [branching] using hk
    rcases eq_or_ne q k with rfl | hne
    · rw [List.getElem?_set_self (by simp [branching]; omega), List.getElem?_ofFn]
      simp only [List.ofFnNthVal, dif_pos hkb]
      have hseg : ((ls ++ [tl]).drop (q * 32 ^ e)).take (32 ^ e) =
          ls.drop (q * 32 ^ e) ++ [tl] := by
        apply seg_append_eq
        · omega
        · omega
      rw [hseg, if_neg (by simp)]
    · rw [List.getElem?_set_ne hne, List.getElem?_ofFn, List.getElem?_ofFn]
      simp only [List.ofFnNthVal, dif_pos hkb]
      rcases Nat.lt_or_ge k q with hlt | hge
    -- slots before the insertion point are unchanged
      · have hseg : ((ls ++ [tl]).drop (k * 32 ^ e)).take (32 ^ e) =
            (ls.drop (k * 32 ^ e)).take (32 ^ e) := by
          apply seg_append_lt
          have h1 : (k + 1) * 32 ^ e ≤ q * 32 ^ e := Nat.mul_le_mul_right _ (by omega)
          have h2 : (k + 1) * 32 ^ e = k * 32 ^ e + 32 ^ e := by ring
          omega
        rw [hseg]
    -- slots after the insertion point are empty on both sides
      · have hqk : q < k := by omega
        have h1 : (q + 1) * 32 ^ e ≤ k * 32 ^ e := Nat.mul_le_mul_right _ (by omega)
        have h2 : (q + 1) * 32 ^ e = q * 32 ^ e + 32 ^ e := by ring
        have hd1 : ls.drop (k * 32 ^ e) = [] := List.drop_eq_nil_of_le (by omega)
        have hd2 : ((ls ++ [tl]).drop (k * 32 ^ e)).take (32 ^ e) = [] := by
          apply seg_append_gt
          omega
        rw [hd1, hd2]
        simp
  · rw [List.getElem?_eq_none (by simp [branching]; omega),
        List.getElem?_eq_none (by simp [branching]; omega)]

theorem push_idx_eq (m e : Nat) :
    ((32 * (m + 1) - 1) >>> (5 * (e + 1))) &&& branching_mask = (m / 32 ^ e) % 32 := by
  rw [and31, Nat.shiftRight_eq_div_pow, two_pow_five_mul]
  have h1 : 32 * (m + 1) - 1 = 32 * m + 31 := by omega
  have h2 : 32 ^ (e + 1) = 32 * 32 ^ e := by
    rw [pow_succ]
    ring
  rw [h1, h2, ← Nat.div_div_eq_div_mul]
  have h3 : (32 * m + 31) / 32 = m := by omega
  rw [h3]

theorem push_tail_canon :
    ∀ (e : Nat), 1 ≤ e → ∀ (m : Nat) (ls : List (List α)) (tl : List α),
      ls.length = m % 32 ^ e →
      push_tail_ (32 * (m + 1)) (5 * e) (canon α e ls) (.leaf tl) =
        canon α e (ls ++ [tl]) := by
  intro e
  induction e with
  | zero => omega
  | succ e ih =>
    intro _ m ls tl hlen
    conv_lhs => unfold push_tail_
    rw [push_idx_eq m e]
    rcases Nat.eq_zero_or_pos e with rfl | he
    · -- level `branching_log`: the grafted tail itself becomes the child
      have hq : (m / 32 ^ 0) % 32 = m % 32 := by
        norm_num
      rw [hq]
      rw [dif_neg (by omega : ¬ 5 * (0 + 1) = 0),
          if_pos (by simp only [branching_log] : 5 * (0 + 1) = branching_log)]
      have hlen' : ls.length = m % 32 := by
        rw [hlen]
        norm_num
      apply canon_append_slots 0 ls tl (m % 32) 0 (Nat.mod_lt _ (by norm_num))
        (by simp [hlen']) (by norm_num)
      have hdrop : ls.drop ((m % 32) * 32 ^ 0) = [] := by
        apply List.drop_eq_nil_of_le
        simp [hlen']
      rw [hdrop]
      simp [canon]
    · -- inner level: recurse into (or create) the child at the insertion digit
      have hppos := pow32_pos e
      have hpsucc : 32 ^ (e + 1) = 32 ^ e * 32 := pow_succ 32 e
      have hqm : (m / 32 ^ e) % 32 = (m % 32 ^ (e + 1)) / 32 ^ e := by
        rw [hpsucc]
        exact (Nat.mod_mul_right_div_self _ _ _).symm
      rw [hqm]
      set mloc := m % 32 ^ (e + 1) with hmloc
      set q := mloc / 32 ^ e with hqdef
      set r := mloc % 32 ^ e with hrdef
      have hrm : m % 32 ^ e = r := by
        rw [hrdef, hmloc]
        exact (Nat.mod_mod_of_dvd _ (pow_dvd_pow 32 (by omega))).symm
      have hQR : 32 ^ e * q + r = mloc := Nat.div_add_mod mloc (32 ^ e)
      have hmloclt : mloc < 32 ^ (e + 1) := Nat.mod_lt _ (pow32_pos (e + 1))
      have hq32 : q < 32 := by
        rw [hqdef]
        apply Nat.div_lt_of_lt_mul
        omega
      have hrlt : r < 32 ^ e := Nat.mod_lt _ hppos
      have hqb : q < branching := by simpa [branching] using hq32
      have hsub : 5 * (e + 1) - branching_log = 5 * e := by
        simp only [branching_log]
        omega
      have hmulcomm : q * 32 ^ e = 32 ^ e * q := Nat.mul_comm _ _
      rw [dif_neg (by omega : ¬ 5 * (e + 1) = 0),
          if_neg (by simp only [branching_log]; omega : ¬ 5 * (e + 1) = branching_log)]
      rw [canon_getD e ls q hqb]
      by_cases hE : ((ls.drop (q * 32 ^ e)).take (32 ^ e)).isEmpty
      · -- the slot is empty: a fresh spine is created there
        rw [if_pos hE]
        have hdrop : ls.drop (q * 32 ^ e) = [] := by
          have hl := congrArg List.length (List.isEmpty_iff.mp hE)
          simp only [List.length_take, List.length_drop, List.length_nil] at hl
          exact List.drop_eq_nil_of_le (by omega)
        have hr0 : r = 0 := by
          have hl := congrArg List.length hdrop
          simp only [List.length_drop, List.length_nil] at hl
          omega
        show Node.inner ((canon α (e + 1) ls).innerD.set q
          (some (make_path_ (5 * (e + 1) - branching_log) (Node.leaf tl)))) = _
        rw [hsub, make_path_canon]
        apply canon_append_slots e ls tl q 0 hq32 (by omega) hppos
        rw [hdrop]
        simp
      · -- the slot is occupied: recurse into the existing subtree
        rw [if_neg hE]
        have hseglen : ((ls.drop (q * 32 ^ e)).take (32 ^ e)).length = r := by
          simp only [List.length_take, List.length_drop]
          omega
        show Node.inner ((canon α (e + 1) ls).innerD.set q
          (some (push_tail_ (32 * (m + 1)) (5 * (e + 1) - branching_log)
            (canon α e ((ls.drop (q * 32 ^ e)).take (32 ^ e))) (Node.leaf tl)))) = _
        rw [hsub, ih he m ((ls.drop (q * 32 ^ e)).take (32 ^ e)) tl (by rw [hseglen, hrm])]
        apply canon_append_slots e ls tl q r hq32 (by omega) hrlt
        rw [List.take_of_length_le (by simp only [List.length_drop]; omega)]

/-! ### The representation invariant of vectors built by `push_back` -/

theorem dOf_succ_A {n : Nat} (h : n - tailOff n < 32) : dOf (n + 1) = dOf n := by
  rw [dOf, if_pos (by simpa [branching] using h)]

theorem dOf_succ_B_over {n : Nat} (h : ¬ n - tailOff n < 32)
    (hc : n >>> branching_log > 1 <<< (branching_log * dOf n)) : dOf (n + 1) = dOf n + 1 := by
  rw [dOf, if_neg (by simpa [branching] using h), if_pos hc]

theorem dOf_succ_B_not {n : Nat} (h : ¬ n - tailOff n < 32)
    (hc : ¬ n >>> branching_log > 1 <<< (branching_log * dOf n)) : dOf (n + 1) = dOf n := by
  rw [dOf, if_neg (by simpa [branching] using h), if_neg hc]

theorem shl_shift_eq_pow (d : Nat) : (1 : Nat) <<< (5 * d) = 32 ^ d := by
  rw [one_shl]
  exact two_pow_five_mul d

/-- New tail on the non-full path: copy the old contents, then write `x`. -/
theorem new_tail_take {β : Type} (a : List β) (x dflt : β) (k : Nat) (hk : 1 ≤ k) :
    ((a ++ List.replicate k dflt).set a.length x).take (a.length + 1) = a ++ [x] := by
  rcases k with _ | k
  · omega
  · rw [List.replicate_succ,
        List.set_append_right _ _ le_rfl, Nat.sub_self, List.set_cons_zero]
    rw [List.take_append_eq_append_take, List.take_of_length_le (by omega),
        Nat.add_sub_cancel_left]
    simp

/-- The representation invariant relating a vector value to the abstract list
of its elements: the fields are exactly what the canonical construction
produces. -/
def Rep (xs : List α) (v : vektor α) : Prop :=
  ∃ tl : List α,
    v.size_ = xs.length ∧
    v.shift_ = 5 * dOf xs.length ∧
    v.root_ = canon α (dOf xs.length) (blocks (xs.take (tailOff xs.length))) ∧
    v.tail_ = .leaf tl ∧
    tl.length = 32 ∧
    tl.take (xs.length - tailOff xs.length) = xs.drop (tailOff xs.length)

theorem Rep_empty : Rep ([] : List α) (vektor.empty_ α) := by
  unfold Rep
  refine ⟨defaultLeaf α, rfl, rfl, ?_, rfl, by simp [defaultLeaf, branching], by simp⟩
  show Node.inner (List.replicate branching none) = _
  have h1 : blocks ((([] : List α)).take (tailOff 0)) = [] := by
    simp [blocks_nil]
  rw [List.length_nil, h1]
  show Node.inner (List.replicate branching none) = canon α (0 + 1) []
  rw [canon_succ]
  refine congrArg Node.inner ?_
  refine (ofFn_eq_of_getElem? _ _ (by simp [branching]) ?_).symm
  intro j
  have hj := j.isLt
  simp [List.getElem?_replicate, hj]

theorem Rep_push {xs : List α} {v : vektor α} (hr : Rep xs v) (x : α) :
    Rep (xs ++ [x]) (v.push_back x) := by
  obtain ⟨tl, hsz, hsh, hrt, htl, htlen, htake⟩ := hr
  have hto_le : tailOff xs.length ≤ xs.length := tailOff_le _
  have hts_le : xs.length - tailOff xs.length ≤ 32 := sub_tailOff_le _
  have hto_mod : tailOff xs.length % 32 = 0 := tailOff_mod _
  have hlen' : (xs ++ [x]).length = xs.length + 1 := by simp
  simp only [vektor.push_back, vektor.tail_offset_]
  rw [hsz, htl]
  simp only [Node.leafD]
  by_cases hA : xs.length - tailOff xs.length < branching
  · -- the tail has room (\"Case A\"): only the tail leaf is replaced
    rw [if_pos hA]
    have hts32 : xs.length - tailOff xs.length < 32 := by simpa [branching] using hA
    have hto1 : tailOff (xs.length + 1) = tailOff xs.length := tailOff_succ_of_lt hts32
    unfold Rep
    refine ⟨_, ?_, ?_, ?_, rfl, ?_, ?_⟩
    · show xs.length + 1 = (xs ++ [x]).length
      rw [hlen']
    · show v.shift_ = 5 * dOf (xs ++ [x]).length
      rw [hlen', dOf_succ_A hts32, hsh]
    · show v.root_ = _
      rw [hlen', dOf_succ_A hts32, hto1, List.take_append_of_le_length hto_le, hrt]
    · show (((tl.take (xs.length - tailOff xs.length)) ++
          List.replicate (branching - (xs.length - tailOff xs.length)) default).set
          (xs.length - tailOff xs.length) x).length = 32
      rw [List.length_set, List.length_append, List.length_take, List.length_replicate]
      simp only [branching]
      omega
    · show (((tl.take (xs.length - tailOff xs.length)) ++
          List.replicate (branching - (xs.length - tailOff xs.length)) default).set
          (xs.length - tailOff xs.length) x).take ((xs ++ [x]).length - tailOff (xs ++ [x]).length) =
          (xs ++ [x]).drop (tailOff (xs ++ [x]).length)
      rw [hlen', hto1, List.drop_append_of_le_length hto_le]
      have htake_len : (tl.take (xs.length - tailOff xs.length)).length =
          xs.length - tailOff xs.length := by
        rw [List.length_take]
        omega
      have h1 : xs.length + 1 - tailOff xs.length = (xs.length - tailOff xs.length) + 1 := by
        omega
      rw [h1]
      have hnt := new_tail_take (tl.take (xs.length - tailOff xs.length)) x default
        (branching - (xs.length - tailOff xs.length)) (by simp only [branching]; omega)
      rw [htake_len] at hnt
      rw [hnt, htake]
  · -- the tail is full (\"Case B\"): graft it into the main tree
    rw [if_neg hA]
    have hts32 : xs.length - tailOff xs.length = 32 := by
      have := sub_tailOff_le xs.length
      simp only [branching] at hA
      omega
    have h32n : 32 ≤ xs.length := by omega
    obtain ⟨hto1, hmod⟩ := tailOff_succ_of_full h32n hts32
    have htl_full : tl = xs.drop (tailOff xs.length) := by
      rw [← htake, hts32, List.take_of_length_le (by omega)]
    have hdrop_len : (xs.drop (tailOff xs.length)).length = 32 := by
      rw [List.length_drop]
      omega
    have hmain_len : (xs.take (tailOff xs.length)).length = tailOff xs.length := by
      rw [List.length_take]
      omega
    have hblocks : blocks xs = blocks (xs.take (tailOff xs.length)) ++ [tl] := by
      conv_lhs => rw [← List.take_append_drop (tailOff xs.length) xs]
      rw [blocks_append (by rw [hmain_len]; exact hto_mod), blocks_single hdrop_len, htl_full]
    have hm : 32 * (tailOff xs.length / 32) = tailOff xs.length := by
      omega
    have hn_eq : xs.length = 32 * (tailOff xs.length / 32 + 1) := by
      omega
    have hls_len : (blocks (xs.take (tailOff xs.length))).length = tailOff xs.length / 32 := by
      rw [blocks_length (by rw [hmain_len]; exact hto_mod), hmain_len]
    have hbounds := dOf_bounds xs.length
    have hdpos := dOf_pos xs.length
    have hshr_n : xs.length >>> branching_log = tailOff xs.length / 32 + 1 := by
      rw [shr5]
      omega
    have hshl : (1 : Nat) <<< (5 * dOf xs.length) = 32 ^ dOf xs.length :=
      shl_shift_eq_pow _
    have htake_new : (xs ++ [x]).take (tailOff (xs.length + 1)) = xs := by
      rw [hto1, List.take_left']
      rfl
    have hnewtl_take : ([x] ++ List.replicate (branching - 1) default).take
        ((xs ++ [x]).length - tailOff (xs ++ [x]).length) = (xs ++ [x]).drop
        (tailOff (xs ++ [x]).length) := by
      rw [hlen', hto1]
      have h1 : xs.length + 1 - xs.length = 1 := by omega
      rw [h1, List.drop_left' rfl, List.take_append_of_le_length (by simp)]
      rfl
    by_cases hover : (xs.length >>> branching_log) > (1 <<< v.shift_)
    · -- root overflow: a new root over the old root and a fresh spine
      rw [if_pos hover]
      rw [hsh, hshr_n, hshl] at hover
      have hmeq : tailOff xs.length / 32 = 32 ^ dOf xs.length := by
        have h1 : tailOff xs.length ≤ 32 ^ (dOf xs.length + 1) := hbounds.1
        have h2 : 32 ^ (dOf xs.length + 1) = 32 * 32 ^ dOf xs.length := by
          rw [pow_succ]
          ring
        omega
      have hdsucc : dOf (xs.length + 1) = dOf xs.length + 1 := by
        apply dOf_succ_B_over (by omega)
        rw [hshr_n, show branching_log * dOf xs.length = 5 * dOf xs.length from rfl, hshl]
        omega
      unfold Rep
      refine ⟨[x] ++ List.replicate (branching - 1) default, ?_, ?_, ?_, rfl,
        by simp [branching], hnewtl_take⟩
      · show xs.length + 1 = (xs ++ [x]).length
        rw [hlen']
      · show v.shift_ + branching_log = 5 * dOf (xs ++ [x]).length
        rw [hlen', hdsucc, hsh]
        simp only [branching_log]
        ring
      · show Node.inner _ = _
        rw [hlen', hdsucc, htake_new, hblocks, hrt, hsh,
            make_path_canon (dOf xs.length) tl, canon_succ]
        refine congrArg Node.inner ?_
        refine (ofFn_eq_of_getElem? _ _ (by simp [branching]) ?_).symm
        have hlsl : (blocks (xs.take (tailOff xs.length))).length = 32 ^ dOf xs.length := by
          rw [hls_len, hmeq]
        have hppos := pow32_pos (dOf xs.length)
        intro j
        match j with
        | ⟨0, _⟩ =>
          have hseg : (((blocks (xs.take (tailOff xs.length)) ++ [tl]).drop
              (0 * 32 ^ dOf xs.length)).take (32 ^ dOf xs.length)) =
              blocks (xs.take (tailOff xs.length)) := by
            rw [Nat.zero_mul, List.drop_zero, List.take_left' hlsl]
          simp only [hseg]
          have hne : ¬ (blocks (xs.take (tailOff xs.length))).isEmpty := by
            intro hE
            rw [List.isEmpty_iff] at hE
            rw [hE] at hlsl
            simp at hlsl
            omega
          rw [if_neg hne]
          simp
        | ⟨1, _⟩ =>
          have hseg : (((blocks (xs.take (tailOff xs.length)) ++ [tl]).drop
              (1 * 32 ^ dOf xs.length)).take (32 ^ dOf xs.length)) = [tl] := by
            rw [Nat.one_mul, List.drop_left' hlsl]
            apply List.take_of_length_le
            simp only [List.length_singleton]
            exact hppos
          simp only [hseg]
          rw [if_neg (by simp)]
          simp
        | ⟨k + 2, hk⟩ =>
          have hseg : (((blocks (xs.take (tailOff xs.length)) ++ [tl]).drop
              ((k + 2) * 32 ^ dOf xs.length)).take (32 ^ dOf xs.length)) = [] := by
            apply seg_append_gt
            have h1 : 2 * 32 ^ dOf xs.length ≤ (k + 2) * 32 ^ dOf xs.length :=
              Nat.mul_le_mul_right _ (by omega)
            omega
          simp only [hseg]
          rw [if_pos (by simp)]
          rw [List.getElem?_append_right (by simp)]
          have hk30 : k < 30 := by
            simp only [branching] at hk
            omega
          rw [List.getElem?_replicate,
              if_pos (by simp only [List.length_cons, List.length_nil, branching]; omega)]
    · -- no root overflow: graft through `push_tail_`
      rw [if_neg hover]
      rw [hsh, hshr_n, hshl] at hover
      have hm_lt : tailOff xs.length / 32 < 32 ^ dOf xs.length := by omega
      have hdsucc : dOf (xs.length + 1) = dOf xs.length := by
        apply dOf_succ_B_not (by omega)
        rw [hshr_n, show branching_log * dOf xs.length = 5 * dOf xs.length from rfl, hshl]
        omega
      unfold Rep
      refine ⟨[x] ++ List.replicate (branching - 1) default, ?_, ?_, ?_, rfl,
        by simp [branching], hnewtl_take⟩
      · show xs.length + 1 = (xs ++ [x]).length
        rw [hlen']
      · show v.shift_ = 5 * dOf (xs ++ [x]).length
        rw [hlen', hdsucc, hsh]
      · show push_tail_ xs.length v.shift_ v.root_ (Node.leaf tl) = _
        rw [hlen', hdsucc, htake_new, hblocks, hrt, hsh]
        have hpt := push_tail_canon (dOf xs.length) hdpos (tailOff xs.length / 32)
          (blocks (xs.take (tailOff xs.length))) tl
          (by rw [hls_len]; exact (Nat.mod_eq_of_lt hm_lt).symm)
        rw [← hn_eq] at hpt
        exact hpt

theorem Rep_fromList (xs : List α) : Rep xs (fromList xs) := by
  induction xs using List.reverseRecOn with
  | nil => exact Rep_empty
  | append_singleton l a ih =>
    simp only [fromList, List.foldl_append, List.foldl_cons, List.foldl_nil] at ih ⊢
    exact Rep_push ih a

theorem size_Rep {xs : List α} {v : vektor α} (h : Rep xs v) : v.size_ = xs.length := by
  obtain ⟨tl, h1, -, -, -, -, -⟩ := h
  exact h1

theorem shift_Rep {xs : List α} {v : vektor α} (h : Rep xs v) :
    v.shift_ = 5 * dOf xs.length := by
  obtain ⟨tl, -, h2, -, -, -, -⟩ := h
  exact h2

theorem tail_offset_Rep {xs : List α} {v : vektor α} (h : Rep xs v) :
    v.tail_offset_ = tailOff xs.length := by
  rw [vektor.tail_offset_, size_Rep h]

/-- Element lookup agrees with the abstract list on every valid index. -/
theorem at_Rep {xs : List α} {v : vektor α} (h : Rep xs v) {i : Nat} (hi : i < xs.length) :
    v.at_ i = xs.getD i default := by
  obtain ⟨tl, hsz, hsh, hrt, htl, htlen, htake⟩ := h
  rw [vektor.at_, vektor.array_for_, vektor.tail_offset_, hsz]
  have hto_le := tailOff_le xs.length
  have hts_le := sub_tailOff_le xs.length
  have hto_mod := tailOff_mod xs.length
  by_cases hge : i ≥ tailOff xs.length
  · rw [if_pos hge, htl]
    simp only [Node.leafD]
    rw [and31]
    have hr : i % 32 = i - tailOff xs.length := by omega
    rw [hr, List.getD_eq_getElem?_getD, List.getD_eq_getElem?_getD]
    have h2 : tl[i - tailOff xs.length]? =
        (tl.take (xs.length - tailOff xs.length))[i - tailOff xs.length]? := by
      rw [List.getElem?_take_of_lt (by omega)]
    rw [h2, htake, List.getElem?_drop]
    congr 2
    omega
  · rw [if_neg hge]
    push_neg at hge
    rw [hrt, hsh]
    have hppos := pow32_pos (dOf xs.length)
    have hbounds := dOf_bounds xs.length
    have hmain_len : (xs.take (tailOff xs.length)).length = tailOff xs.length := by
      rw [List.length_take]
      omega
    have hls_len : (blocks (xs.take (tailOff xs.length))).length = tailOff xs.length / 32 := by
      rw [blocks_length (by rw [hmain_len]; exact hto_mod), hmain_len]
    have hm_le : tailOff xs.length / 32 ≤ 32 ^ dOf xs.length := by
      have h1 := hbounds.1
      have h2 : 32 ^ (dOf xs.length + 1) = 32 * 32 ^ dOf xs.length := by
        rw [pow_succ]
        ring
      omega
    have hi5 : (i >>> 5) % 32 ^ dOf xs.length = i / 32 := by
      have h1 : i >>> 5 = i / 32 := by
        rw [Nat.shiftRight_eq_div_pow]
      rw [h1]
      apply Nat.mod_eq_of_lt
      omega
    rw [descend_canon (dOf xs.length) (dOf_pos _) _ i
          (by rw [hls_len]; exact hm_le) (by rw [hls_len, hi5]; omega)]
    simp only [Node.leafD]
    rw [hi5, and31]
    have hblk : (blocks (xs.take (tailOff xs.length)))[i / 32]? =
        some (((xs.take (tailOff xs.length)).drop (32 * (i / 32))).take 32) := by
      apply blocks_getElem?
      · rw [hmain_len]
        exact hto_mod
      · rw [hmain_len]
        omega
    rw [List.getD_eq_getElem?_getD, List.getD_eq_getElem?_getD, hblk]
    simp only [Option.getD_some]
    rw [List.getD_eq_getElem?_getD,
        List.getElem?_take_of_lt (by omega : i % 32 < 32), List.getElem?_drop]
    have hidx : 32 * (i / 32) + i % 32 = i := Nat.div_add_mod i 32
    rw [hidx, List.getElem?_take_of_lt (by omega)]

/-- Every leaf block handed out by `array_for_` has exactly `branching` slots. -/
theorem arrayFor_length_Rep {xs : List α} {v : vektor α} (h : Rep xs v) (i : Nat) :
    (v.array_for_ i).length = 32 := by
  obtain ⟨tl, hsz, hsh, hrt, htl, htlen, htake⟩ := h
  rw [vektor.array_for_, vektor.tail_offset_, hsz]
  have hto_le := tailOff_le xs.length
  have hto_mod := tailOff_mod xs.length
  by_cases hge : i ≥ tailOff xs.length
  · rw [if_pos hge, htl]
    simpa [Node.leafD] using htlen
  · rw [if_neg hge]
    push_neg at hge
    rw [hrt, hsh]
    have hppos := pow32_pos (dOf xs.length)
    have hbounds := dOf_bounds xs.length
    have hmain_len : (xs.take (tailOff xs.length)).length = tailOff xs.length := by
      rw [List.length_take]
      omega
    have hls_len : (blocks (xs.take (tailOff xs.length))).length = tailOff xs.length / 32 := by
      rw [blocks_length (by rw [hmain_len]; exact hto_mod), hmain_len]
    have hm_le : tailOff xs.length / 32 ≤ 32 ^ dOf xs.length := by
      have h1 := hbounds.1
      have h2 : 32 ^ (dOf xs.length + 1) = 32 * 32 ^ dOf xs.length := by
        rw [pow_succ]
        ring
      omega
    have hi5 : (i >>> 5) % 32 ^ dOf xs.length = i / 32 := by
      have h1 : i >>> 5 = i / 32 := by
        rw [Nat.shiftRight_eq_div_pow]
      rw [h1]
      apply Nat.mod_eq_of_lt
      omega
    rw [descend_canon (dOf xs.length) (dOf_pos _) _ i
          (by rw [hls_len]; exact hm_le) (by rw [hls_len, hi5]; omega)]
    simp only [Node.leafD]
    rw [hi5]
    have hblk : (blocks (xs.take (tailOff xs.length)))[i / 32]? =
        some (((xs.take (tailOff xs.length)).drop (32 * (i / 32))).take 32) := by
      apply blocks_getElem?
      · rw [hmain_len]
        exact hto_mod
      · rw [hmain_len]
        omega
    rw [List.getD_eq_getElem?_getD, hblk]
    simp only [Option.getD_some]
    rw [List.length_take, List.length_drop, hmain_len]
    omega

/-- The descent only looks at the bits of the index above the leaf mask. -/
theorem descend_block_congr :
    ∀ (d : Nat) (node : Node α) (i j : Nat), i / 32 = j / 32 →
      descend node (5 * d) i = descend node (5 * d) j := by
  intro d
  induction d with
  | zero =>
    intro node i j _
    rw [Nat.mul_zero, descend_zero, descend_zero]
  | succ d ih =>
    intro node i j hij
    rw [descend_step _ (by omega : 5 * (d + 1) ≠ 0) i,
        descend_step _ (by omega : 5 * (d + 1) ≠ 0) j]
    have hdiv : ∀ m : Nat, m >>> (5 * (d + 1)) = m / 32 / 32 ^ d := by
      intro m
      rw [Nat.shiftRight_eq_div_pow]
      rw [show 2 ^ (5 * (d + 1)) = 32 * 32 ^ d by
            rw [two_pow_five_mul, pow_succ]
            ring]
      rw [← Nat.div_div_eq_div_mul]
    have hsub : 5 * (d + 1) - branching_log = 5 * d := by
      simp only [branching_log]
      omega
    rw [hdiv i, hdiv j, hij, hsub]
    exact ih _ i j hij

/-- `array_for_` returns the same block for indices in the same 32-block. -/
theorem arrayFor_congr {xs : List α} {v : vektor α} (h : Rep xs v) {i j : Nat}
    (hij : i / 32 = j / 32) : v.array_for_ i = v.array_for_ j := by
  rw [vektor.array_for_, vektor.array_for_, tail_offset_Rep h]
  have hto_mod := tailOff_mod xs.length
  by_cases hge : i ≥ tailOff xs.length
  · rw [if_pos hge, if_pos (by omega)]
  · rw [if_neg hge, if_neg (by omega)]
    rw [shift_Rep h]
    exact congrArg Node.leafD (descend_block_congr (dOf xs.length) v.root_ i j hij)

/-! ### Cursor lemmas: every reachable cursor has the canonical shape -/

theorem arrayFor_tail {xs : List α} {v : vektor α} (h : Rep xs v) {i : Nat}
    (hge : tailOff xs.length ≤ i) : v.array_for_ i = v.tail_.leafD := by
  rw [vektor.array_for_, tail_offset_Rep h, if_pos hge]

theorem beginIt_cursorAt (v : vektor α) : beginIt v = cursorAt v 0 := rfl

theorem endIt_cursorAt {xs : List α} {v : vektor α} (h : Rep xs v)
    (hlt : xs.length < 2 ^ 64) : endIt v = cursorAt v v.size_ := by
  rw [endIt, cursorAt]
  have harr : v.array_for_ (sub64 v.size_ 1) = v.array_for_ v.size_ := by
    rcases Nat.eq_zero_or_pos xs.length with h0 | hpos
    · have h1 : tailOff xs.length ≤ sub64 v.size_ 1 := by
        rw [size_Rep h, h0, sub64_of_lt (by norm_num) (by norm_num)]
        have h2 : tailOff 0 = 0 := by
          rw [tailOff_eq]
          norm_num
        rw [h2]
        omega
      have h2 : tailOff xs.length ≤ v.size_ := by
        rw [size_Rep h]
        exact tailOff_le _
      rw [arrayFor_tail h h1, arrayFor_tail h h2]
    · have hs : sub64 v.size_ 1 = xs.length - 1 := by
        rw [size_Rep h]
        exact sub64_of_le (by omega) (by omega)
      have hlt' := tailOff_lt hpos
      have h1 : tailOff xs.length ≤ sub64 v.size_ 1 := by
        rw [hs]
        omega
      have h2 : tailOff xs.length ≤ v.size_ := by
        rw [size_Rep h]
        exact tailOff_le _
      rw [arrayFor_tail h h1, arrayFor_tail h h2]
  rw [harr]

theorem derefIt_cursorAt (v : vektor α) (k : Nat) : derefIt (cursorAt v k) = v.at_ k := by
  rw [derefIt, cursorAt, vektor.at_]
  simp

theorem cursorAt_i (v : vektor α) (k : Nat) : (cursorAt v k).i_ = k := rfl

theorem cursorAt_base (v : vektor α) (k : Nat) :
    (cursorAt v k).base_ = k - (k &&& branching_mask) := rfl

theorem cursorAt_leaf (v : vektor α) (k : Nat) : (cursorAt v k).leaf_ = v.array_for_ k := rfl

theorem cursorAt_off (v : vektor α) (k : Nat) :
    (cursorAt v k).off_ = ((k &&& branching_mask : Nat) : Int) := rfl

theorem incIt_cursorAt {xs : List α} {v : vektor α} (h : Rep xs v)
    (hlt : xs.length < 2 ^ 64) {k : Nat} (hk : k < xs.length) :
    incIt v (cursorAt v k) = cursorAt v (k + 1) := by
  have hmod : (k + 1) % 2 ^ 64 = k + 1 := Nat.mod_eq_of_lt (by omega)
  simp only [incIt, cursorAt_i, cursorAt_base, cursorAt_leaf, cursorAt_off, and31, hmod]
  rw [cursorAt]
  simp only [and31]
  have hsub : sub64 (k + 1) (k - k % 32) = k + 1 - (k - k % 32) :=
    sub64_of_le (by omega) (by omega)
  rw [hsub]
  split
  next hcond =>
    -- fast path: still inside the cached block
    have hc32 : k % 32 ≠ 31 := by
      simp only [branching] at hcond
      omega
    have h1 : (k + 1) % 32 = k % 32 + 1 := by omega
    have eb : (k + 1) - (k + 1) % 32 = k - k % 32 := by omega
    have el : v.array_for_ (k + 1) = v.array_for_ k := arrayFor_congr h (by omega)
    have eo : (((k + 1) % 32 : Nat) : Int) = ((k % 32 : Nat) : Int) + 1 := by
      rw [h1]
      push_cast
      ring
    rw [eb, el, eo]
  next hcond =>
    -- slow path: move to the next block
    have hc32 : k % 32 = 31 := by
      simp only [branching] at hcond
      omega
    have h1 : (k + 1) % 32 = 0 := by omega
    have hb : (k - k % 32 + branching) % 2 ^ 64 = k + 1 := by
      have h2 : k - k % 32 + branching = k + 1 := by
        simp only [branching]
        omega
      rw [h2]
      exact hmod
    have eb : (k + 1) - (k + 1) % 32 = k + 1 := by omega
    have eo : (((k + 1) % 32 : Nat) : Int) = 0 := by
      rw [h1]
      simp
    rw [hb, eb, eo]

theorem decIt_cursorAt {xs : List α} {v : vektor α} (h : Rep xs v)
    (hlt : xs.length < 2 ^ 64) {k : Nat} (hk1 : 1 ≤ k) (hk : k ≤ xs.length) :
    decIt v (cursorAt v k) = cursorAt v (k - 1) := by
  simp only [decIt, cursorAt_i, cursorAt_base, cursorAt_leaf, cursorAt_off, and31]
  have hsub1 : sub64 k 1 = k - 1 := sub64_of_le (by omega) (by omega)
  rw [hsub1, cursorAt]
  simp only [and31]
  split
  next hcond =>
    -- fast path: still inside the cached block
    have hc32 : k % 32 ≠ 0 := by omega
    have h1 : k % 32 = (k - 1) % 32 + 1 := by omega
    have eb : (k - 1) - (k - 1) % 32 = k - k % 32 := by omega
    have el : v.array_for_ (k - 1) = v.array_for_ k := arrayFor_congr h (by omega)
    have eo : (((k - 1) % 32 : Nat) : Int) = ((k % 32 : Nat) : Int) - 1 := by
      rw [h1]
      push_cast
      ring
    rw [eb, el, eo]
  next hcond =>
    -- slow path: move to the previous block
    have hc32 : k % 32 = 0 := by omega
    have h32 : 32 ≤ k := by omega
    have h1 : (k - 1) % 32 = 31 := by omega
    have hsub2 : sub64 (k - k % 32) branching = k - 32 := by
      have h2 : sub64 (k - k % 32) branching = k - k % 32 - branching :=
        sub64_of_le (by simp only [branching]; omega) (by omega)
      rw [h2]
      simp only [branching]
      omega
    rw [hsub2, arrayFor_length_Rep h]
    have eb : (k - 1) - (k - 1) % 32 = k - 32 := by omega
    have eo : (((k - 1) % 32 : Nat) : Int) = ((32 : Nat) : Int) - 1 := by
      rw [h1]
      norm_num
    rw [eb, eo]

theorem advIt_cursorAt {xs : List α} {v : vektor α} (h : Rep xs v)
    (hlt : xs.length + 32 < 2 ^ 64) {k : Nat} (hk : k ≤ xs.length) (n : Int)
    (hn0 : 0 ≤ (k : Int) + n) (hn1 : (k : Int) + n ≤ (xs.length : Int)) :
    advIt v (cursorAt v k) n = cursorAt v ((k : Int) + n).toNat := by
  set m := ((k : Int) + n).toNat with hm
  have hmn : (m : Int) = (k : Int) + n := by
    rw [hm]
    omega
  have hmle : m ≤ xs.length := by omega
  have hi : addI64 k n = m := by
    rw [hm]
    apply addI64_eq hn0
    have hc : ((xs.length : Int)) < 2 ^ 64 := by
      exact_mod_cast Nat.lt_of_le_of_lt (Nat.le_add_right _ 32) hlt
    omega
  simp only [advIt, cursorAt_i, cursorAt_base, cursorAt_leaf, cursorAt_off, and31, hi]
  rw [cursorAt]
  simp only [and31]
  split
  next hcond =>
    -- the source fast path is only reachable when the new index equals the base
    obtain ⟨hc1, hc2⟩ := hcond
    have heq : m = k - k % 32 := by
      rcases eq_or_lt_of_le hc1 with heq | hlt2
      · exact heq
      · exfalso
        have hs : sub64 m (k - k % 32) = 2 ^ 64 - ((k - k % 32) - m) :=
          sub64_of_lt hlt2 (by omega)
        rw [hs] at hc2
        simp only [branching] at hc2
        omega
    have hm32 : m % 32 = 0 := by omega
    have eb : m - m % 32 = k - k % 32 := by omega
    have el : v.array_for_ m = v.array_for_ k := arrayFor_congr h (by omega)
    have eo : ((m % 32 : Nat) : Int) = ((k % 32 : Nat) : Int) + n := by
      have hoffn : n = (m : Int) - (k : Int) := by omega
      rw [hm32, hoffn]
      push_cast
      omega
    rw [eb, el, eo]
  next hcond =>
    rfl

/-- The cursor-advance algorithm exactly as the specification words it:
update `i += n`; if the new `i` satisfies `base ≤ i` and `i - base < B`,
step `curr` by `n`; else recompute `base` and `curr` from `array_for`. -/
def specAdvance (v : vektor α) (it : Iter α) (n : Int) : Iter α :=
  if (it.base_ : Int) ≤ (it.i_ : Int) + n ∧ (it.i_ : Int) + n - (it.base_ : Int) < branching then
    { it with i_ := ((it.i_ : Int) + n).toNat, off_ := it.off_ + n }
  else
    ⟨((it.i_ : Int) + n).toNat,
     ((it.i_ : Int) + n).toNat - (((it.i_ : Int) + n).toNat &&& branching_mask),
     v.array_for_ (((it.i_ : Int) + n).toNat),
     ((((it.i_ : Int) + n).toNat &&& branching_mask : Nat) : Int)⟩

theorem specAdvance_cursorAt {xs : List α} {v : vektor α} (h : Rep xs v)
    {k : Nat} (hk : k ≤ xs.length) (n : Int)
    (hn0 : 0 ≤ (k : Int) + n) (hn1 : (k : Int) + n ≤ (xs.length : Int)) :
    specAdvance v (cursorAt v k) n = cursorAt v ((k : Int) + n).toNat := by
  set m := ((k : Int) + n).toNat with hm
  have hmn : (m : Int) = (k : Int) + n := by
    rw [hm]
    omega
  have hmle : m ≤ xs.length := by omega
  simp only [specAdvance, cursorAt_i, cursorAt_base, cursorAt_leaf, cursorAt_off, and31]
  rw [show ((k : Int) + n).toNat = m from hm.symm, cursorAt]
  simp only [and31]
  split
  next hcond =>
    obtain ⟨hc1, hc2⟩ := hcond
    have hN1 : k - k % 32 ≤ m := by omega
    have hN2 : m - (k - k % 32) < 32 := by
      simp only [branching] at hc2
      omega
    have eb : m - m % 32 = k - k % 32 := by omega
    have el : v.array_for_ m = v.array_for_ k := arrayFor_congr h (by omega)
    have eo : ((m % 32 : Nat) : Int) = ((k % 32 : Nat) : Int) + n := by
      have hoffn : n = (m : Int) - (k : Int) := by omega
      rw [hoffn]
      push_cast
      omega
    rw [eb, el, eo]
  next hcond =>
    rfl

/-! ### Iteration lemmas -/

theorem stepN_cursorAt {xs : List α} {v : vektor α} (h : Rep xs v)
    (hlt : xs.length < 2 ^ 64) :
    ∀ (m j : Nat), j + m ≤ xs.length → stepN v m (cursorAt v j) = cursorAt v (j + m) := by
  intro m
  induction m with
  | zero =>
    intro j _
    rfl
  | succ m ih =>
    intro j hj
    rw [stepN, incIt_cursorAt h hlt (by omega), ih (j + 1) (by omega)]
    congr 1
    omega

theorem collectFwd_cursorAt {xs : List α} {v : vektor α} (h : Rep xs v)
    (hlt : xs.length < 2 ^ 64) :
    ∀ (cnt j : Nat), j + cnt ≤ xs.length →
      collectFwd v cnt (cursorAt v j) = (List.range' j cnt).map (fun t => v.at_ t) := by
  intro cnt
  induction cnt with
  | zero =>
    intro j _
    rfl
  | succ cnt ih =>
    intro j hj
    rw [collectFwd, derefIt_cursorAt, incIt_cursorAt h hlt (by omega),
        ih (j + 1) (by omega), List.range'_succ]
    rfl

theorem collectRev_cursorAt {xs : List α} {v : vektor α} (h : Rep xs v)
    (hlt : xs.length < 2 ^ 64) :
    ∀ (cnt j : Nat), cnt ≤ j → j ≤ xs.length →
      collectRev v cnt (cursorAt v j) =
        ((List.range' (j - cnt) cnt).map (fun t => v.at_ t)).reverse := by
  intro cnt
  induction cnt with
  | zero =>
    intro j _ _
    rfl
  | succ cnt ih =>
    intro j hcnt hj
    rw [collectRev]
    rw [decIt_cursorAt h hlt (by omega) hj, derefIt_cursorAt,
        ih (j - 1) (by omega) (by omega)]
    have hr : List.range' (j - (cnt + 1)) (cnt + 1) =
        List.range' (j - (cnt + 1)) cnt ++ [j - 1] := by
      have hrc : List.range' (j - (cnt + 1)) (cnt + 1) =
          List.range' (j - (cnt + 1)) cnt ++ [j - (cnt + 1) + 1 * cnt] :=
        List.range'_concat (j - (cnt + 1)) cnt
      rw [hrc]
      congr 2
      omega
    rw [hr]
    have hr2 : j - 1 - cnt = j - (cnt + 1) := by omega
    rw [hr2]
    simp

/-! ### Allocation counting: one count per `make_node_` call -/

/-- Number of `make_node_` calls performed by `make_path_`. -/
def mkPathAllocs (level : Nat) : Nat :=
  if h : level = 0 then 0 else 1 + mkPathAllocs (level - branching_log)
termination_by level
decreasing_by
  simp only [branching_log]
  omega

/-- Number of `make_node_` calls performed by `push_tail_` (one fresh inner
node per level visited, plus the spine of `make_path_` when a slot is empty). -/
def pushTailAllocs (sz : Nat) (level : Nat) (parent : Node α) : Nat :=
  1 + (if h : level = 0 then 0
       else if level = branching_log then 0
       else
         match parent.innerD.getD (((sz - 1) >>> level) &&& branching_mask) none with
         | some child => pushTailAllocs sz (level - branching_log) child
         | none => mkPathAllocs (level - branching_log))
termination_by level
decreasing_by
  simp only [branching_log]
  omega

/-- Number of `make_node_` calls performed by `push_back`: the new tail leaf,
plus on the grafting path either the new root and the fresh spine, or the
nodes cloned by `push_tail_`. -/
def pushBackAllocs (v : vektor α) : Nat :=
  if v.size_ - v.tail_offset_ < branching then 1
  else 1 + (if (v.size_ >>> branching_log) > (1 <<< v.shift_)
            then 1 + mkPathAllocs v.shift_
            else pushTailAllocs v.size_ v.shift_ v.root_)

theorem mkPathAllocs_eq (e : Nat) : mkPathAllocs (5 * e) = e := by
  induction e with
  | zero =>
    rw [Nat.mul_zero]
    unfold mkPathAllocs
    simp
  | succ e ih =>
    conv_lhs => unfold mkPathAllocs
    rw [dif_neg (by omega)]
    have h : 5 * (e + 1) - branching_log = 5 * e := by
      simp only [branching_log]
      omega
    rw [h, ih]
    omega

theorem pushTailAllocs_le (sz : Nat) :
    ∀ (e : Nat), 1 ≤ e → ∀ (p : Node α), pushTailAllocs sz (5 * e) p ≤ e := by
  intro e
  induction e with
  | zero => omega
  | succ e ih =>
    intro _ p
    conv_lhs => unfold pushTailAllocs
    rcases Nat.eq_zero_or_pos e with rfl | he
    · rw [dif_neg (by omega : ¬ 5 * (0 + 1) = 0),
          if_pos (by simp only [branching_log] : 5 * (0 + 1) = branching_log)]
    · rw [dif_neg (by omega : ¬ 5 * (e + 1) = 0),
          if_neg (by simp only [branching_log]; omega : ¬ 5 * (e + 1) = branching_log)]
      have hsub : 5 * (e + 1) - branching_log = 5 * e := by
        simp only [branching_log]
        omega
      rw [hsub]
      split
      next child heq =>
        have := ih he child
        omega
      next heq =>
        rw [mkPathAllocs_eq]
        omega

theorem pushBackAllocs_le_shift {xs : List α} {v : vektor α} (h : Rep xs v) :
    pushBackAllocs v ≤ v.shift_ / 5 + 2 := by
  rw [pushBackAllocs, shift_Rep h]
  have hd := dOf_pos xs.length
  have hdiv : 5 * dOf xs.length / 5 = dOf xs.length := by omega
  rw [hdiv]
  split
  · omega
  · split
    · rw [mkPathAllocs_eq]
      omega
    · have hpt := pushTailAllocs_le v.size_ (dOf xs.length) hd v.root_
      omega

theorem clog_lower {x kk : Nat} (hx : 32 ^ kk < x) : kk + 1 ≤ Nat.clog 32 x := by
  by_contra hcon
  push_neg at hcon
  have h2 : Nat.clog 32 x ≤ kk := by omega
  have h3 : x ≤ 32 ^ kk := (Nat.le_pow_iff_clog_le (by norm_num)).2 h2
  omega

theorem pushBackAllocs_le_clog {xs : List α} {v : vektor α} (h : Rep xs v) :
    pushBackAllocs v ≤ Nat.clog 32 (v.size + 1) + 2 := by
  rw [pushBackAllocs, vektor.size, tail_offset_Rep h, size_Rep h, shift_Rep h]
  have hd := dOf_pos xs.length
  have hb := dOf_bounds xs.length
  have hto_le := tailOff_le xs.length
  have hts := sub_tailOff_le xs.length
  have hto_mod := tailOff_mod xs.length
  by_cases hA : xs.length - tailOff xs.length < branching
  · rw [if_pos hA]
    omega
  · rw [if_neg hA]
    have hts32 : xs.length - tailOff xs.length = 32 := by
      simp only [branching] at hA
      omega
    have h32 : 32 ≤ xs.length := by omega
    have hshr : xs.length >>> branching_log = tailOff xs.length / 32 + 1 := by
      rw [shr5]
      omega
    have hshl := shl_shift_eq_pow (dOf xs.length)
    rw [hshr, hshl]
    have hp2 : 32 ^ (dOf xs.length + 1) = 32 * 32 ^ dOf xs.length := by
      rw [pow_succ]
      ring
    by_cases hov : tailOff xs.length / 32 + 1 > 32 ^ dOf xs.length
    · rw [if_pos hov, mkPathAllocs_eq]
      have hmeq : tailOff xs.length / 32 = 32 ^ dOf xs.length := by omega
      have hgt : 32 ^ (dOf xs.length + 1) < xs.length + 1 := by omega
      have hc := clog_lower hgt
      omega
    · rw [if_neg hov]
      have hpt := pushTailAllocs_le xs.length (dOf xs.length) hd v.root_
      rcases hb.2 with hd1 | hlt
      · omega
      · have hgt : 32 ^ dOf xs.length < xs.length + 1 := by omega
        have hc := clog_lower hgt
        omega

/-! ### Structural sharing on the grafting path -/

theorem push_tail_preserves_other_slots (sz level : Nat) (parent tail : Node α) (j : Nat)
    (hne : j ≠ ((sz - 1) >>> level) &&& branching_mask) :
    (push_tail_ sz level parent tail).innerD.getD j none = parent.innerD.getD j none := by
  conv_lhs => unfold push_tail_
  show (parent.innerD.set _ _).getD j none = _
  rw [List.getD_eq_getElem?_getD, List.getElem?_set_ne (Ne.symm hne),
      ← List.getD_eq_getElem?_getD]

theorem push_back_shares_root {v : vektor α} (x : α)
    (h : v.size_ - v.tail_offset_ < branching) : (v.push_back x).root_ = v.root_ := by
  simp only [vektor.push_back]
  rw [if_pos h]

theorem shift_fromList (xs : List α) : (fromList xs).shift_ = 5 * dOf xs.length :=
  shift_Rep (Rep_fromList xs)

/-- The shift-minimality invariant exactly as the specification words it:
`shift` is the smallest multiple of `L = 5` such that
`B ^ ((shift / L) + 1) ≥ tail_offset`. -/
def SmallestShiftSpec (shift toff : Nat) : Prop :=
  shift % 5 = 0 ∧ toff ≤ 32 ^ (shift / 5 + 1) ∧
  ∀ t : Nat, t % 5 = 0 → toff ≤ 32 ^ (t / 5 + 1) → shift ≤ t

/-! ### The claims -/

/-- C1: for every vector obtained from the empty vector by appending
`x_0, …, x_{n-1}` with `push_back`, `size` equals `n` and indexed access at
`i` returns `x_i` for every `i < n`; and `size (push_back v x) = size v + 1`
for every vector (in particular every reachable one). -/
theorem C1_push_back_builds_sequence {α : Type} [Inhabited α] (xs : List α) :
    (fromList xs).size = xs.length ∧
    (∀ i : Nat, i < xs.length → (fromList xs).at_ i = xs.getD i default) ∧
    (∀ (v : vektor α) (x : α), (v.push_back x).size = v.size + 1) := by
  refine ⟨?_, ?_, ?_⟩
  · rw [vektor.size, size_Rep (Rep_fromList xs)]
  · intro i hi
    exact at_Rep (Rep_fromList xs) hi
  · intro v x
    simp only [vektor.size, vektor.push_back]
    split
    · rfl
    · split <;> rfl

theorem C1_witness : (fromList ([10, 20, 30] : List Nat)).at_ 2 = 30 :=
  (C1_push_back_builds_sequence [10, 20, 30]).2.1 2 (by decide)

/-- C2: `push_back` is persistent: with `v = fromList xs` and
`v' = push_back v x`, the new vector has `size v + 1` elements, agrees with
`v` on every index below `size v`, and has `x` at index `size v`; `v` itself
is a pure value, so its observations are unchanged by construction. -/
theorem C2_push_back_persistence {α : Type} [Inhabited α] (xs : List α) (x : α) :
    ((fromList xs).push_back x).size = (fromList xs).size + 1 ∧
    (∀ i : Nat, i < (fromList xs).size →
      ((fromList xs).push_back x).at_ i = (fromList xs).at_ i) ∧
    ((fromList xs).push_back x).at_ ((fromList xs).size) = x := by
  have h1 := Rep_fromList xs
  have h2 := Rep_push h1 x
  have hss : (fromList xs).size = xs.length := by
    rw [vektor.size, size_Rep h1]
  refine ⟨?_, ?_, ?_⟩
  · rw [vektor.size, vektor.size, size_Rep h2, size_Rep h1]
    simp
  · intro i hi
    rw [hss] at hi
    have ha : ((fromList xs).push_back x).at_ i = (xs ++ [x]).getD i default :=
      at_Rep h2 (by simp only [List.length_append, List.length_singleton]; omega)
    have hb : (fromList xs).at_ i = xs.getD i default := at_Rep h1 hi
    rw [ha, hb]
    rw [List.getD_eq_getElem?_getD, List.getD_eq_getElem?_getD,
        List.getElem?_append_left hi]
  · rw [hss]
    have ha : ((fromList xs).push_back x).at_ xs.length = (xs ++ [x]).getD xs.length default :=
      at_Rep h2 (by simp only [List.length_append, List.length_singleton]; omega)
    rw [ha]
    rw [List.getD_eq_getElem?_getD, List.getElem?_append_right le_rfl]
    simp

theorem C2_witness : ((fromList ([1, 2] : List Nat)).push_back 5).at_ 2 = 5 := by
  have h := (C2_push_back_persistence ([1, 2] : List Nat) 5).2.2
  have hs : (fromList ([1, 2] : List Nat)).size = 2 := by decide
  rw [hs] at h
  exact h

/-- C3 is false as stated: after appending the 1025 elements `0..1024` the
shift is still `5`; the 1025th append grafts the tail through `push_tail_`
but the root-overflow test `(size >> L) > (1 << shift)` is `32 > 32`, which
fails, so `shift` does not transition to `10`. -/
theorem C3_counterexample :
    (fromList (List.range 1025) : vektor Nat).shift_ = 5 ∧
    ¬ (fromList (List.range 1025) : vektor Nat).shift_ = 10 := by
  have h : (fromList (List.range 1025) : vektor Nat).shift_ =
      5 * dOf (List.range 1025).length := shift_fromList _
  rw [List.length_range] at h
  rw [show dOf 1025 = 1 from by decide] at h
  norm_num at h
  exact ⟨h, by rw [h]; norm_num⟩

/-- C3 (amended): appending `0..1024` (1025 elements) gives `size = 1025` and
`at_ i = i` for all `i < 1025`, but `shift` remains `5`; the root overflow
that moves `shift` from `5` to `10` happens at the append that produces size
`1057` (the first full tail beyond `32 * (1 << 5) = 1024` main-tree
elements), not at size 1025. -/
theorem C3_amended :
    (fromList (List.range 1025) : vektor Nat).size = 1025 ∧
    (∀ i : Nat, i < 1025 → (fromList (List.range 1025) : vektor Nat).at_ i = i) ∧
    (fromList (List.range 1025) : vektor Nat).shift_ = 5 ∧
    (fromList (List.range 1056) : vektor Nat).shift_ = 5 ∧
    (fromList (List.range 1057) : vektor Nat).shift_ = 10 := by
  refine ⟨?_, ?_, ?_, ?_, ?_⟩
  · rw [vektor.size, size_Rep (Rep_fromList _), List.length_range]
  · intro i hi
    have h : (fromList (List.range 1025) : vektor Nat).at_ i =
        (List.range 1025).getD i default :=
      at_Rep (Rep_fromList _) (by rw [List.length_range]; omega)
    rw [h, List.getD_eq_getElem?_getD, List.getElem?_range hi]
    rfl
  · have h : (fromList (List.range 1025) : vektor Nat).shift_ =
        5 * dOf (List.range 1025).length := shift_fromList _
    rw [List.length_range, show dOf 1025 = 1 from by decide] at h
    rw [h]
  · have h : (fromList (List.range 1056) : vektor Nat).shift_ =
        5 * dOf (List.range 1056).length := shift_fromList _
    rw [List.length_range, show dOf 1056 = 1 from by decide] at h
    rw [h]
  · have h : (fromList (List.range 1057) : vektor Nat).shift_ =
        5 * dOf (List.range 1057).length := shift_fromList _
    rw [List.length_range, show dOf 1057 = 2 from by decide] at h
    rw [h]

theorem C3_amended_witness : (fromList (List.range 1025) : vektor Nat).at_ 1000 = 1000 :=
  C3_amended.2.1 1000 (by norm_num)

/-- C4 is false as stated: for the reachable 33-element vector the tail
offset is 32, and `shift = 0` already satisfies `B ^ (0/L + 1) = 32 ≥ 32`,
yet the vector's shift is `5`, so `5` is not the smallest such multiple. -/
theorem C4_counterexample :
    ¬ SmallestShiftSpec (fromList (List.range 33) : vektor Nat).shift_
      ((fromList (List.range 33) : vektor Nat).tail_offset_) := by
  intro hs
  have h1 : (fromList (List.range 33) : vektor Nat).shift_ = 5 := by
    have h : (fromList (List.range 33) : vektor Nat).shift_ =
        5 * dOf (List.range 33).length := shift_fromList _
    rw [List.length_range, show dOf 33 = 1 from by decide] at h
    rw [h]
  have h2 : (fromList (List.range 33) : vektor Nat).tail_offset_ = 32 := by
    rw [vektor.tail_offset_, size_Rep (Rep_fromList _), List.length_range, tailOff_eq]
    norm_num
  rw [h1, h2] at hs
  have h3 := hs.2.2 0 (by norm_num) (by norm_num)
  omega

/-- C4 (amended): for every vector reachable from the empty vector by
`push_back`, `shift` is the smallest multiple of `L = 5` that is at least
`L` such that `B ^ ((shift / L) + 1) ≥ tail_offset`; with the lower bound
`L` in place the empty/initial state no longer needs a special case. -/
theorem C4_amended {α : Type} [Inhabited α] (xs : List α) :
    (fromList xs).shift_ % 5 = 0 ∧ 5 ≤ (fromList xs).shift_ ∧
    (fromList xs).tail_offset_ ≤ 32 ^ ((fromList xs).shift_ / 5 + 1) ∧
    (∀ t : Nat, t % 5 = 0 → 5 ≤ t →
      (fromList xs).tail_offset_ ≤ 32 ^ (t / 5 + 1) → (fromList xs).shift_ ≤ t) := by
  have h := Rep_fromList xs
  have hsh := shift_Rep h
  have hto : (fromList xs).tail_offset_ = tailOff xs.length := tail_offset_Rep h
  have hb := dOf_bounds xs.length
  have hd := dOf_pos xs.length
  rw [hsh, hto]
  have hdiv : 5 * dOf xs.length / 5 = dOf xs.length := by omega
  refine ⟨by omega, by omega, ?_, ?_⟩
  · rw [hdiv]
    exact hb.1
  · intro t ht5 ht5le htle
    obtain ⟨j, rfl⟩ : ∃ j, t = 5 * j := ⟨t / 5, by omega⟩
    have hj1 : 1 ≤ j := by omega
    have hjdiv : 5 * j / 5 = j := by omega
    rw [hjdiv] at htle
    rcases hb.2 with hd1 | hlt
    · rw [hd1]
      omega
    · by_contra hcon
      push_neg at hcon
      have hj : j + 1 ≤ dOf xs.length := by omega
      have hp : 32 ^ (j + 1) ≤ 32 ^ dOf xs.length := Nat.pow_le_pow_right (by norm_num) hj
      omega

theorem C4_amended_witness : (fromList (List.range 33) : vektor Nat).shift_ ≤ 10 :=
  (C4_amended (List.range 33)).2.2.2 10 (by norm_num) (by norm_num) (by decide)

/-- C5: for every canonical cursor at logical index `k` over a vector built
by `push_back`, and every signed step `n` keeping the index inside
`[0, size]`, the implemented `advance` produces exactly the cursor state
described by the specification's advance-by-`n` algorithm. -/
theorem C5_advance_refines_spec {α : Type} [Inhabited α] (xs : List α) (k : Nat) (n : Int)
    (hk : k ≤ xs.length) (hn0 : 0 ≤ (k : Int) + n) (hn1 : (k : Int) + n ≤ (xs.length : Int))
    (hbig : xs.length + 32 < 2 ^ 64) :
    advIt (fromList xs) (cursorAt (fromList xs) k) n =
      specAdvance (fromList xs) (cursorAt (fromList xs) k) n := by
  rw [advIt_cursorAt (Rep_fromList xs) hbig hk n hn0 hn1,
      specAdvance_cursorAt (Rep_fromList xs) hk n hn0 hn1]

theorem C5_witness :
    advIt (fromList (List.range 40) : vektor Nat) (cursorAt (fromList (List.range 40)) 33) 7 =
      specAdvance (fromList (List.range 40)) (cursorAt (fromList (List.range 40)) 33) 7 :=
  C5_advance_refines_spec (List.range 40) 33 7 (by decide) (by decide) (by decide) (by decide)

/-- C6: advancing the begin cursor of a vector by `k` and dereferencing
yields the same element as indexed access at `k`, for every `k < size`. -/
theorem C6_advance_begin_deref {α : Type} [Inhabited α] (xs : List α) (k : Nat)
    (hk : k < xs.length) (hbig : xs.length + 32 < 2 ^ 64) :
    derefIt (advIt (fromList xs) (beginIt (fromList xs)) (k : Int)) =
      (fromList xs).at_ k := by
  rw [beginIt_cursorAt]
  have hadv := advIt_cursorAt (Rep_fromList xs) hbig (Nat.zero_le xs.length)
    (k : Int) (by omega) (by omega)
  rw [hadv]
  have h1 : (((0 : Nat) : Int) + (k : Int)).toNat = k := by omega
  rw [h1, derefIt_cursorAt]

theorem C6_witness :
    derefIt (advIt (fromList (List.range 100) : vektor Nat)
        (beginIt (fromList (List.range 100))) 77) =
      (fromList (List.range 100)).at_ 77 :=
  C6_advance_begin_deref (List.range 100) 77 (by decide) (by decide)

/-- C7: iterating forward from `begin` by single increments yields
`at_ 0, …, at_ (size - 1)` in order; reverse iteration (single decrements
from `end`, as the reverse cursors do) yields exactly the reverse of the
forward sequence; and `size` increments take `begin` to `end`. -/
theorem C7_iteration_order {α : Type} [Inhabited α] (xs : List α)
    (hbig : xs.length < 2 ^ 64) :
    collectFwd (fromList xs) (fromList xs).size (beginIt (fromList xs)) =
      (List.range (fromList xs).size).map (fun t => (fromList xs).at_ t) ∧
    collectRev (fromList xs) (fromList xs).size (endIt (fromList xs)) =
      (collectFwd (fromList xs) (fromList xs).size (beginIt (fromList xs))).reverse ∧
    stepN (fromList xs) (fromList xs).size (beginIt (fromList xs)) =
      endIt (fromList xs) := by
  have h := Rep_fromList xs
  have hs : (fromList xs).size = xs.length := by
    rw [vektor.size, size_Rep h]
  have hfwd : collectFwd (fromList xs) (fromList xs).size (beginIt (fromList xs)) =
      (List.range (fromList xs).size).map (fun t => (fromList xs).at_ t) := by
    rw [beginIt_cursorAt, hs, collectFwd_cursorAt h hbig xs.length 0 (by omega),
        List.range_eq_range']
  refine ⟨hfwd, ?_, ?_⟩
  · rw [hfwd, endIt_cursorAt h hbig, hs, size_Rep h,
        collectRev_cursorAt h hbig xs.length xs.length le_rfl le_rfl,
        List.range_eq_range']
    simp
  · rw [beginIt_cursorAt, hs, stepN_cursorAt h hbig xs.length 0 (by omega),
        endIt_cursorAt h hbig, size_Rep h]
    norm_num

theorem C7_witness :
    collectRev (fromList (List.range 40) : vektor Nat) (fromList (List.range 40)).size
        (endIt (fromList (List.range 40))) =
      (collectFwd (fromList (List.range 40)) (fromList (List.range 40)).size
        (beginIt (fromList (List.range 40)))).reverse :=
  (C7_iteration_order (List.range 40) (by decide)).2.1

/-- C8: the empty vector has `size = 0`, `empty` returns `true`, and the
cursors produced by `begin` and `end` compare equal. -/
theorem C8_empty_vector {α : Type} [Inhabited α] :
    (vektor.empty_ α).size = 0 ∧ (vektor.empty_ α).emptyb = true ∧
    eqIt (beginIt (vektor.empty_ α)) (endIt (vektor.empty_ α)) = true :=
  ⟨rfl, rfl, rfl⟩

/-- C9: moving a cursor to the legal one-past-the-end position violates the
assertion `index < size` of `array_for_`: on a non-empty vector whose size
is a positive multiple of `B`, incrementing from `size - 1` calls
`array_for_ size`, and advancing to exactly `size` via the recompute path
does too; and constructing `end` on the empty vector passes the underflowed
index `size - 1 = 2 ^ 64 - 1` to `array_for_`.  In all three cases the
checked operations fail even though the cursor operation itself is within
its specified precondition. -/
theorem C9_assertion_violations {α : Type} [Inhabited α] (xs : List α) (hne : xs ≠ [])
    (hmod : xs.length % 32 = 0) (hbig : xs.length < 2 ^ 64) :
    incItChk (fromList xs) (cursorAt (fromList xs) (xs.length - 1)) = none ∧
    advItChk (fromList xs) (beginIt (fromList xs)) (xs.length : Int) = none ∧
    endItChk (vektor.empty_ α) = none := by
  have h := Rep_fromList xs
  have hsz := size_Rep h
  have hpos : 0 < xs.length := List.length_pos.2 hne
  have h32 : 32 ≤ xs.length := by omega
  refine ⟨?_, ?_, ?_⟩
  · rw [incItChk]
    simp only [cursorAt_i, cursorAt_base, cursorAt_leaf, cursorAt_off, and31]
    rw [if_pos (show xs.length - 1 < (fromList xs).size_ by rw [hsz]; omega)]
    have hmod64 : (xs.length - 1 + 1) % 2 ^ 64 = xs.length := by omega
    rw [hmod64]
    have hb : xs.length - 1 - (xs.length - 1) % 32 = xs.length - 32 := by omega
    rw [hb]
    have hsv : sub64 xs.length (xs.length - 32) = 32 := by
      have hx : sub64 xs.length (xs.length - 32) = xs.length - (xs.length - 32) :=
        sub64_of_le (by omega) (by omega)
      omega
    rw [hsv, if_neg (by simp only [branching]; omega)]
    rw [vektor.array_forChk, if_neg (show ¬ xs.length < (fromList xs).size_ by rw [hsz]; omega)]
    rfl
  · rw [advItChk, beginIt_cursorAt]
    simp only [cursorAt_i, cursorAt_base, cursorAt_leaf, cursorAt_off, and31]
    have hpass : ((xs.length : Int) ≤ 0 ∨ 0 + (xs.length : Int).toNat ≤ (fromList xs).size_) ∧
        (0 ≤ (xs.length : Int) ∨ (-(xs.length : Int)).toNat ≤ 0) := by
      refine ⟨Or.inr ?_, Or.inl (by omega)⟩
      rw [hsz]
      omega
    rw [if_pos hpass]
    have hi : addI64 0 (xs.length : Int) = xs.length := by
      have hx : addI64 0 (xs.length : Int) = (((0 : Nat) : Int) + (xs.length : Int)).toNat :=
        addI64_eq (by omega) (by push_cast; omega)
      rw [hx]
      omega
    rw [hi]
    have hfast : ¬ (xs.length ≤ 0 - 0 % 32 ∧
        sub64 xs.length (0 - 0 % 32) < branching) := by
      intro hand
      have h1 := hand.1
      omega
    rw [if_neg hfast]
    rw [vektor.array_forChk, if_neg (show ¬ xs.length < (fromList xs).size_ by rw [hsz]; omega)]
    rfl
  · have hc : ¬ sub64 (vektor.empty_ α).size_ 1 < (vektor.empty_ α).size_ := by
      show ¬ sub64 0 1 < 0
      exact Nat.not_lt_zero _
    rw [endItChk, vektor.array_forChk, if_neg hc]
    rfl

theorem C9_witness :
    incItChk (fromList (List.range 32) : vektor Nat)
      (cursorAt (fromList (List.range 32)) 31) = none := by
  have h := (C9_assertion_violations (List.range 32)
    (by decide) (by decide) (by decide)).1
  have hl : (List.range 32).length - 1 = 31 := by decide
  rw [hl] at h
  exact h

/-- C10: `push_back` allocates at most `shift / L + 2` nodes (tail leaf,
at most `shift / L` spine nodes, optionally a new root), this count is at
most `⌈log_B (size + 1)⌉ + 2`, the root is shared untouched on the
non-full-tail path, and `push_tail_` copies a parent while preserving every
child slot other than the insertion digit. -/
theorem C10_allocation_and_sharing {α : Type} [Inhabited α] (xs : List α) :
    pushBackAllocs (fromList xs) ≤ (fromList xs).shift_ / 5 + 2 ∧
    pushBackAllocs (fromList xs) ≤ Nat.clog 32 ((fromList xs).size + 1) + 2 ∧
    (∀ x : α, (fromList xs).size_ - (fromList xs).tail_offset_ < branching →
      ((fromList xs).push_back x).root_ = (fromList xs).root_) ∧
    (∀ (sz level : Nat) (parent tl : Node α) (j : Nat),
      j ≠ ((sz - 1) >>> level) &&& branching_mask →
      (push_tail_ sz level parent tl).innerD.getD j none =
        parent.innerD.getD j none) :=
  ⟨pushBackAllocs_le_shift (Rep_fromList xs),
   pushBackAllocs_le_clog (Rep_fromList xs),
   fun x hx => push_back_shares_root x hx,
   fun sz level parent tl j hj => push_tail_preserves_other_slots sz level parent tl j hj⟩

theorem C10_witness :
    ((fromList (List.range 33) : vektor Nat).push_back 7).root_ =
      (fromList (List.range 33) : vektor Nat).root_ :=
  (C10_allocation_and_sharing (List.range 33)).2.2.1 7 (by decide)

end immu
